import Mathlib

/-!
Verification of the SLSah repository's core logic over a shallow embedding.

The embedding covers:
* the nested-dictionary trees manipulated by `deep_merge`
  (`src/generate_schema_from_api.py`), both as pure values (`Val`/`Entries`)
  and as a heap of mutable dictionary objects (`PVal`/`Heap`) for the
  mutation/frame claims;
* the achievement-schema builder loop of `get_game_schema`
  (`src/generate_schema_from_api.py`, lines 87-101);
* the binary key-value codec (the `vdf.binary_dumps`/`vdf.binary_load`
  calls; the codec itself is the external `vdf` library, modelled from the
  specification's wire-format description);
* the YAML section editor `write_yaml_section`/`write_section`
  (`src/sls_manager.py`, `src/lib/config_manager.py`) on the physical-line
  representation used by the Python code (`readlines`);
* the section reader `read_section`/`read_yaml_section` and the JSON cache
  reader `read_cache` (`src/shared_utils.py`);
* the Steam library manifest scan `parse_libraryfolders_vdf`
  (`src/generate_schema_from_api.py`; the text parser `vdf.load` is the
  external `vdf` library, modelled from the specification's grammar).
-/

mutual

/-- A value of a Python nested-dictionary tree as handled by `deep_merge` and
the schema builder: a string scalar, an integer scalar, or a nested dict.
Dictionaries are insertion-ordered association lists, mirroring Python
dictionaries. -/
inductive Val : Type where
  | str : String → Val
  | int : Int → Val
  | map : Entries → Val

/-- The ordered entries of a Python dictionary with `String` keys. -/
inductive Entries : Type where
  | nil : Entries
  | cons : String → Val → Entries → Entries

end

/-- `d[k]` as Python reads it: the value at the first matching key. -/
def getE : Entries → String → Option Val
  | .nil, _ => none
  | .cons k v rest, key => if k = key then some v else getE rest key

/-- `d[k] = v` on a key already present (or appended at the end otherwise):
Python dict item assignment, which keeps the position of an existing key and
appends a new key at the end. -/
def setE : Entries → String → Val → Entries
  | .nil, key, v => .cons key v .nil
  | .cons k w rest, key, v =>
    if k = key then .cons k v rest else .cons k w (setE rest key v)

/-- Appending a fresh key at the end of a dict (used for keys known absent). -/
def appendE : Entries → String → Val → Entries
  | .nil, key, v => .cons key v .nil
  | .cons k w rest, key, v => .cons k w (appendE rest key v)

/-- Number of entries of a dict. -/
def lengthE : Entries → Nat
  | .nil => 0
  | .cons _ _ rest => lengthE rest + 1

/-- The keys of a dict, in order. -/
def keysE : Entries → List String
  | .nil => []
  | .cons k _ rest => k :: keysE rest

mutual

/-- Well-formedness of a tree that arose from a Python dict: at every
nesting level the keys are pairwise distinct (Python dicts cannot hold a
key twice). -/
def wfVal : Val → Bool
  | .str _ => true
  | .int _ => true
  | .map m => wfEntries m

/-- Well-formedness of dict entries: distinct keys, recursively. -/
def wfEntries : Entries → Bool
  | .nil => true
  | .cons k v rest => !(keysE rest).contains k && wfVal v && wfEntries rest

end

mutual

/-- `deep_merge` of `src/generate_schema_from_api.py` (lines 41-49), on tree
values, with an explicit recursion budget `fuel` (any budget larger than the
nesting depth of the source behaves identically; `none` with enough fuel
means the Python call raises).

    def deep_merge(source, destination):
        for key, value in source.items():
            if isinstance(value, dict):
                node = destination.setdefault(key, {})
                deep_merge(value, node)
            else:
                destination[key] = value
        return destination

The returned dict is the state of `destination` after the call. -/
def deep_merge : Nat → Entries → Entries → Option Entries
  | 0, _, _ => none
  | fuel + 1, source, destination => mergeItems fuel source destination

/-- The `for key, value in source.items()` loop of `deep_merge`, mutating the
destination step by step.  A source value that is itself a dict recurses into
`destination.setdefault(key, {})`; when the destination holds a scalar there,
the recursive call raises on the first source item (modelled as `none`) and is
a no-op when the nested source dict is empty. -/
def mergeItems : Nat → Entries → Entries → Option Entries
  | 0, _, _ => none
  | _ + 1, .nil, destination => some destination
  | fuel + 1, .cons key value rest, destination =>
    match value with
    | .map sub =>
      match getE destination key with
      | some (.map node) =>
        match deep_merge fuel sub node with
        | some merged => mergeItems fuel rest (setE destination key (.map merged))
        | none => none
      | some _ =>
        match sub with
        | .nil => mergeItems fuel rest destination
        | .cons _ _ _ => none
      | none =>
        match deep_merge fuel sub .nil with
        | some merged => mergeItems fuel rest (appendE destination key (.map merged))
        | none => none
    | _ => mergeItems fuel rest (setE destination key value)

end

/-- Python `s.split(sep)` for a one-character separator: cuts at every
occurrence of `sep`, keeping empty pieces.  The result is never empty. -/
def pySplit (sep : Char) : List Char → List (List Char)
  | [] => [[]]
  | c :: rest =>
    match pySplit sep rest with
    | [] => [[c]]
    | g :: gs => if c = sep then [] :: g :: gs else (c :: g) :: gs

/-- `url.split('/')[-1]` as used for the icon fields in `get_game_schema`
(`src/generate_schema_from_api.py`, line 99): the substring after the last
slash (the whole string when there is no slash). -/
def lastSegment (s : String) : String :=
  String.mk ((pySplit '/' s.data).getLastD [])

/-- One achievement record as delivered by the external API collaborator
(the fields of `ach` read by the builder loop; `description` is read with
`.get('description', '')` and `hidden` is an integer later stringified). -/
structure Ach where
  name : String
  displayName : String
  description : String
  hidden : Nat
  icon : String
  icongray : String

/-- The achievement-bit dictionary built for one record at block `blockId`,
bit `bitId` (`src/generate_schema_from_api.py`, lines 94-101). -/
def achBitDef (language : String) (blockId bitId : Nat) (a : Ach) : Val :=
  .map (.cons "name" (.str a.name) (.cons "bit" (.int bitId)
    (.cons "display" (.map (
      .cons "name" (.map (.cons language (.str a.displayName)
        (.cons "token" (.str ("NEW_ACHIEVEMENT_" ++ toString blockId ++ "_" ++
          toString bitId ++ "_NAME")) .nil)))
      (.cons "desc" (.map (.cons language (.str a.description)
        (.cons "token" (.str ("NEW_ACHIEVEMENT_" ++ toString blockId ++ "_" ++
          toString bitId ++ "_DESC")) .nil)))
      (.cons "hidden" (.str (toString a.hidden))
      (.cons "icon" (.str (lastSegment a.icon))
      (.cons "icon_gray" (.str (lastSegment a.icongray)) .nil)))))) .nil)))

/-- The fresh stat block `{"type": "4", "id": blockId, "bits": {}}` created
when a block id is first used (`src/generate_schema_from_api.py`, line 93). -/
def newBlock (blockId : String) : Val :=
  .map (.cons "type" (.str "4") (.cons "id" (.str blockId)
    (.cons "bits" (.map .nil) .nil)))

/-- One iteration of the builder loop (`src/generate_schema_from_api.py`,
lines 89-101) for the record at zero-based index `i`:
`block_id = i // 32 + 1`, `bit_id = i % 32`, the block is created lazily,
and the bit definition is stored under `str(bit_id)` in the block's
`"bits"` dict.  The fall-through arms correspond to shapes that would make
the Python subscripts raise; they never arise from the empty initial
`stats`. -/
def addAch (language : String) (i : Nat) (a : Ach) (stats : Entries) : Entries :=
  let blockId := toString (i / 32 + 1)
  let stats1 := match getE stats blockId with
    | none => appendE stats blockId (newBlock blockId)
    | some _ => stats
  match getE stats1 blockId with
  | some (.map blk) =>
    match getE blk "bits" with
    | some (.map bits) =>
      setE stats1 blockId (.map (setE blk "bits"
        (.map (setE bits (toString (i % 32))
          (achBitDef language (i / 32 + 1) (i % 32) a)))))
    | _ => stats1
  | _ => stats1

/-- The builder loop with its running index. -/
def buildStatsAux (language : String) : Nat → List Ach → Entries → Entries
  | _, [], stats => stats
  | i, a :: rest, stats => buildStatsAux language (i + 1) rest (addAch language i a stats)

/-- The `"stats"` dict built by `get_game_schema` from the ordered
achievement list (`src/generate_schema_from_api.py`, lines 87-101). -/
def build_stats (language : String) (achs : List Ach) : Entries :=
  buildStatsAux language 0 achs .nil

/-- The full `new_schema` tree built by `get_game_schema`
(`src/generate_schema_from_api.py`, lines 80-101). -/
def new_schema (appId gameName gameVersion language : String)
    (achs : List Ach) : Entries :=
  .cons appId (.map (.cons "gamename" (.str gameName)
    (.cons "version" (.str gameVersion)
      (.cons "stats" (.map (build_stats language achs)) .nil)))) .nil

/-- Looking up the bit definition stored at block key `blockId`, bit key
`bitId` of a stats dict (the read path of the nested subscripts in the
builder). -/
def statsBitDef (stats : Entries) (blockId bitId : String) : Option Val :=
  match getE stats blockId with
  | some (.map blk) =>
    match getE blk "bits" with
    | some (.map bits) => getE bits bitId
    | _ => none
  | _ => none

/-- Decimal digit characters of a natural number, most significant first:
the character list underlying `Nat.repr`. -/
def decChars (n : Nat) : List Char :=
  if h : n < 10 then [Nat.digitChar n]
  else decChars (n / 10) ++ [Nat.digitChar (n % 10)]
  termination_by n
  decreasing_by exact Nat.div_lt_self (by omega) (by omega)

/-- The numeric value of a decimal digit string (used to invert `decChars`). -/
def decValue (l : List Char) : Nat :=
  l.foldl (fun acc c => acc * 10 + (c.toNat - 48)) 0

/-- The `"bits"` dict of the block stored at `blockId`, when shaped as the
builder shapes it. -/
def statsBits (stats : Entries) (blockId : String) : Option Entries :=
  match getE stats blockId with
  | some (.map blk) =>
    match getE blk "bits" with
    | some (.map bits) => some bits
    | _ => none
  | _ => none

/-- Reading a field of the `"display"` dict of one achievement-bit value. -/
def bitDisplayField (v : Val) (field : String) : Option Val :=
  match v with
  | .map e =>
    match getE e "display" with
    | some (.map d) => getE d field
    | _ => none
  | _ => none

/-- A generic concrete achievement record, for evaluating the builder on
lists of a given length. -/
def demoAch (j : Nat) : Ach :=
  { name := "ACH_" ++ toString j
    displayName := "Ach " ++ toString j
    description := ""
    hidden := 0
    icon := "http://e/i" ++ toString j ++ ".jpg"
    icongray := "http://e/g" ++ toString j ++ ".jpg" }

/-- `n` generic concrete achievement records. -/
def demoRecords (n : Nat) : List Ach := (List.range n).map demoAch

/-- The icon transformation claimed by the specification (claim C9): keep
only the final path segment of the URL, with any directory prefix and any
query suffix stripped.  Stated from the claim's words, for comparison with
what the code computes (`lastSegment`). -/
def specIconSegment (s : String) : String :=
  String.mk (((pySplit '/' s.data).getLastD []).takeWhile (fun c => c ≠ '?'))

/-- Shape invariant of the stats dict maintained by the builder loop: every
stored block is a dict whose `"bits"` entry is a dict. -/
def blocksWF (stats : Entries) : Prop :=
  ∀ k v, getE stats k = some v →
    ∃ blk bits, v = Val.map blk ∧ getE blk "bits" = some (Val.map bits)

/-- One YAML value as produced by `yaml.safe_load`: the Python `None`
(`null`), a scalar, a sequence or a mapping. -/
inductive YVal : Type where
  | null : YVal
  | ybool : Bool → YVal
  | yint : Int → YVal
  | ystr : String → YVal
  | ylist : List YVal → YVal
  | ymap : List (String × YVal) → YVal

/-- Lookup in the parsed YAML mapping (Python `config[section_key]`). -/
def yLookup : List (String × YVal) → String → Option YVal
  | [], _ => none
  | (k, v) :: rest, key => if k = key then some v else yLookup rest key

/-- The outcome of opening and parsing a file: the file is absent
(`FileNotFoundError`), present but unparseable (the parser raised, with the
error message), or parsed to a value. -/
inductive FileRead (α : Type) : Type where
  | missing : FileRead α
  | corrupt : String → FileRead α
  | ok : α → FileRead α

/-- `read_section` of `src/lib/config_manager.py` (lines 48-59), identical
to `read_yaml_section` of `src/sls_manager.py` (lines 37-49).  The parsed
document is a mapping or the null document (`.ok none`, an effectively
empty file).  A parse error prints a message and returns Python `None`
(`YVal.null` here); a missing file, a falsy/empty document, an absent key,
or a key with a null value all return the caller's default. -/
def read_section (file : FileRead (Option (List (String × YVal))))
    (key : String) (default : YVal) : YVal :=
  match file with
  | .missing => default
  | .corrupt _ => .null
  | .ok none => default
  | .ok (some config) =>
    match config with
    | [] => default
    | _ :: _ =>
      match yLookup config key with
      | some .null => default
      | some v => v
      | none => default

/-- One cached app-details entry (`{'name': ..., 'type': ...}` in
`src/shared_utils.py`). -/
structure AppDetails where
  name : String
  type : String

/-- `read_cache` of `src/shared_utils.py` (lines 51-60): a missing cache
file yields the empty mapping; a present but undecodable cache file prints
a warning and also yields the empty mapping. -/
def read_cache (file : FileRead (List (String × AppDetails))) :
    List (String × AppDetails) :=
  match file with
  | .missing => []
  | .corrupt _ => []
  | .ok cache => cache

/-- A physical line as produced by Python `readlines`: its characters,
including the trailing `'\n'` when present. -/
abbrev Line := List Char

/-- Python's default `str.strip()` whitespace characters. -/
def isWS (c : Char) : Bool :=
  c = ' ' || c = '\t' || c = '\n' || c = '\r' || c = '\x0b' || c = '\x0c'

/-- Python `line.strip()`: whitespace removed from both ends. -/
def pyStrip (l : Line) : Line :=
  ((l.dropWhile isWS).reverse.dropWhile isWS).reverse

/-- Python `len(line) - len(line.lstrip(' '))`: the count of leading space
characters (spaces only, not tabs). -/
def leadingSpaces (l : Line) : Nat :=
  (l.takeWhile (fun c => c = ' ')).length

/-- The heading test of the section-locating loop:
`line.strip().startswith(f"{section_key}:")`. -/
def isHeading (key : String) (l : Line) : Bool :=
  List.isPrefixOf (key.data ++ [':']) (pyStrip l)

/-- The `for i, line in enumerate(lines): ... start_index = i; break` loop
(`src/sls_manager.py` lines 61-65, `src/lib/config_manager.py` lines 84-88):
index of the first heading line, if any. -/
def findHeading (key : String) : List Line → Option Nat
  | [] => none
  | l :: rest =>
    if isHeading key l then some 0
    else (findHeading key rest).map (fun i => i + 1)

/-- Helper for `pyFind`, scanning positions left to right. -/
def pyFindAux (pat : Line) (i : Nat) : Line → Int
  | [] => if List.isPrefixOf pat [] then (i : Int) else -1
  | c :: rest =>
    if List.isPrefixOf pat (c :: rest) then (i : Int)
    else pyFindAux pat (i + 1) rest

/-- Python `line.find(key)`: index of the first occurrence of `key` as a
substring, `-1` when absent (used for `indent_level`). -/
def pyFind (l pat : Line) : Int := pyFindAux pat 0 l

/-- Stable insertion into a sorted list (Python `sorted` on small data). -/
def insertBy {α : Type} (le : α → α → Bool) (a : α) : List α → List α
  | [] => [a]
  | b :: rest => if le a b then a :: b :: rest else b :: insertBy le a rest

/-- Python `sorted` (stable, ascending by `le`), as insertion sort. -/
def sortBy {α : Type} (le : α → α → Bool) : List α → List α
  | [] => []
  | a :: rest => insertBy le a (sortBy le rest)

/-- Deduplication keeping first occurrences (the effect of `set(...)` before
sorting: only membership matters since the result is sorted). -/
def pyDedupAux (seen : List Int) : List Int → List Int
  | [] => []
  | a :: rest =>
    if seen.contains a then pyDedupAux seen rest
    else a :: pyDedupAux (a :: seen) rest

/-- `sorted(list(set(new_data)))` for a list of ints. -/
def pySortedSet (l : List Int) : List Int :=
  sortBy (fun a b => a ≤ b) (pyDedupAux [] l)

/-- The `new_data` argument of `write_section`: a Python list of ints or an
int-to-int dict (given as its `items()` in insertion order, distinct keys). -/
inductive SData : Type where
  | ints : List Int → SData
  | pairs : List (Int × Int) → SData

/-- The rendered section body (`new_data_lines`,
`src/sls_manager.py` lines 74-80, `src/lib/config_manager.py` lines
100-107): a list renders as sorted deduplicated `"- {item}"` lines, a dict
as `"{key}: {value}"` lines sorted by `sorted(new_data.items())`; every
line is indented `indent_level + 2` spaces and newline-terminated. -/
def renderItems (indent : Int) : SData → List Line
  | .ints l =>
    (pySortedSet l).map
      (fun n => List.replicate (indent + 2).toNat ' ' ++
        ("- " ++ toString n).data ++ ['\n'])
  | .pairs l =>
    (sortBy (fun p q => decide (p.1 < q.1 ∨ (p.1 = q.1 ∧ p.2 ≤ q.2))) l).map
      (fun p => List.replicate (indent + 2).toNat ' ' ++
        (toString p.1 ++ ": " ++ toString p.2).data ++ ['\n'])

/-- The extent test of the `while end_index < len(lines)` loop:
`line.strip() and (len(line) - len(line.lstrip(' '))) > indent_level`. -/
def isSectionItem (indent : Int) (l : Line) : Bool :=
  !(pyStrip l).isEmpty && decide (indent < (leadingSpaces l : Int))

/-- The splice of `write_section` once the heading index is known:
`indent_level = lines[start_index].find(section_key)`, the extent is the
run of section-item lines after the heading, and
`final_lines = lines[:start_index+1] + new_data_lines + lines[end_index:]`. -/
def spliceSection (lines : List Line) (si : Nat) (key : String)
    (data : SData) : List Line :=
  let indent := pyFind (lines.getD si []) key.data
  lines.take (si + 1) ++ renderItems indent data ++
    (lines.drop (si + 1)).dropWhile (isSectionItem indent)

/-- Does the line end with a newline character (`line.endswith('\n')`)? -/
def endsNL (l : Line) : Bool := decide (l.getLast? = some '\n')

/-- `write_section` of `src/lib/config_manager.py` (lines 61-131),
identical to `write_yaml_section` of `src/sls_manager.py` (lines 51-97), on
the physical-line list read by `readlines()` (an absent file reads as `[]`).
When no heading line exists, the code appends the single element
`"\n{section_key}:\n"` (after a bare `"\n"` element if the last line lacked
a newline) and sets `start_index = len(lines) - 2` — which points at the
element *before* the appended heading. -/
def write_section (key : String) (data : SData) (lines0 : List Line) : List Line :=
  let lines := if lines0.isEmpty then [(key ++ ":").data ++ ['\n']] else lines0
  match findHeading key lines with
  | some si => spliceSection lines si key data
  | none =>
    let lines1 :=
      if !lines.isEmpty && !endsNL (lines.getLastD []) then lines ++ [['\n']]
      else lines
    let lines2 := lines1 ++ [('\n' :: key.data) ++ [':', '\n']]
    spliceSection lines2 (lines2.length - 2) key data

/-- A concrete config file for evaluating `write_section`: a comment, an
`AdditionalApps` section with one item, and a following section. -/
def demoLines : List Line :=
  [("# managed by SLSsteam\n").data,
   ("AdditionalApps:\n").data,
   ("  - 7\n").data,
   ("FakeAppIds:\n").data,
   ("  10: 480\n").data]

/-- Skipping whitespace between tokens of the vendor text manifest. -/
def vdfSkipWS (l : List Char) : List Char := l.dropWhile isWS

/-- Helper for `vdfString`: characters up to the closing quote. -/
def vdfStringAux : List Char → List Char → Option (String × List Char)
  | [], _ => none
  | c :: rest, acc =>
    if c = '"' then some (String.mk acc.reverse, rest)
    else vdfStringAux rest (c :: acc)

/-- One quoted token `"..."` of the manifest grammar; `none` when the input
does not start with a quote or the quote is unterminated. -/
def vdfString : List Char → Option (String × List Char)
  | '"' :: rest => vdfStringAux rest []
  | _ => none

/-- Modelled from the spec: the recursive `"key" { ... }` / `"key" "value"`
text grammar of the vendor manifest (specification §4.5), as parsed by the
external `vdf` library (`vdf.load`), which is not part of this repository.
Parses zero or more pairs, stopping before a closing brace or at end of
input; `fuel` is a recursion budget (any budget above the input length
behaves identically). -/
def vdfEntries : Nat → List Char → Option (Entries × List Char)
  | 0, _ => none
  | fuel + 1, l =>
    match vdfSkipWS l with
    | [] => some (.nil, [])
    | c :: rest =>
      if c = '\x7d' then some (.nil, c :: rest)
      else
        match vdfString (c :: rest) with
        | none => none
        | some (k, r1) =>
          match vdfSkipWS r1 with
          | '\x7b' :: r3 =>
            match vdfEntries fuel r3 with
            | some (inner, r4) =>
              match vdfSkipWS r4 with
              | '\x7d' :: r5 =>
                match vdfEntries fuel r5 with
                | some (restE, r6) => some (.cons k (.map inner) restE, r6)
                | none => none
              | _ => none
            | none => none
          | r2 =>
            match vdfString r2 with
            | some (v, r3) =>
              match vdfEntries fuel r3 with
              | some (restE, r4) => some (.cons k (.str v) restE, r4)
              | none => none
            | none => none

/-- Modelled from the spec: `vdf.load` on the whole manifest text — the
top-level document is a sequence of pairs consuming the entire input
(anything left over, such as a stray `}`, is a syntax error → `none`). -/
def vdfLoad (text : List Char) : Option Entries :=
  match vdfEntries (text.length + 1) text with
  | some (es, rest) => if (vdfSkipWS rest).isEmpty then some es else none
  | none => none

/-- Python `app_id.isdigit()`: nonempty and all digits. -/
def isDigitStr (s : String) : Bool :=
  !s.isEmpty && s.data.all (fun c => c.isDigit)

/-- The folder scan of `parse_libraryfolders_vdf`
(`src/generate_schema_from_api.py`, lines 190-194): for every dict-valued
library folder, the keys of its `apps` dict (`.get('apps', {}).keys()`);
a present non-dict `apps` value makes `.keys()` raise (`none`, caught by
the surrounding `except`). -/
def collectApps : Entries → Option (List String)
  | .nil => some []
  | .cons _ v rest =>
    match v with
    | .map folder =>
      match getE folder "apps" with
      | some (.map apps) => (collectApps rest).map (fun ks => keysE apps ++ ks)
      | some _ => none
      | none => collectApps rest
    | _ => collectApps rest

/-- `parse_libraryfolders_vdf` of `src/generate_schema_from_api.py`
(lines 174-198), from the manifest text: parse with `vdf.load`, take the
digit-only keys of `apps` directly inside each dict-valued entry of the
top-level `libraryfolders` dict, and return them as a sorted deduplicated
list of integers; every failure path (`except Exception`) returns `[]`. -/
def parse_libraryfolders_vdf (text : List Char) : List Int :=
  match vdfLoad text with
  | none => []
  | some data =>
    match getE data "libraryfolders" with
    | some (.map lf) =>
      match collectApps lf with
      | some ks =>
        pySortedSet ((ks.filter isDigitStr).map (fun k => (decValue k.data : Int)))
      | none => []
    | some _ => []
    | none => []

mutual

/-- Stated from the claim's words (C7): the keys directly inside every
`"apps"` block at any nesting depth of a parsed manifest value. -/
def specAppsKeysV : Val → List String
  | .str _ => []
  | .int _ => []
  | .map m => specAppsKeysE m

/-- Stated from the claim's words (C7): the same collection over entries. -/
def specAppsKeysE : Entries → List String
  | .nil => []
  | .cons k v rest =>
    (if k = "apps" then
      (match v with
       | .map apps => keysE apps
       | _ => []) else []) ++ specAppsKeysV v ++ specAppsKeysE rest

end

/-- Stated from the claim's words (C7): the deduplicated sorted union of the
digit-only keys directly inside every `"apps"` block at any nesting depth. -/
def specParseAppIds (text : List Char) : List Int :=
  match vdfLoad text with
  | none => []
  | some data =>
    pySortedSet (((specAppsKeysE data).filter isDigitStr).map
      (fun k => (decValue k.data : Int)))

/-- A string the wire format can carry: NUL-free (strings are
null-terminated on the wire) and ASCII, so that one character is one byte. -/
def strOk (s : String) : Bool :=
  s.data.all (fun c => decide (c.toNat ≠ 0) && decide (c.toNat < 128))

mutual

/-- Encodability of one tree value: strings NUL-free and ASCII, integers in
the signed 32-bit range, maps recursively encodable. -/
def encOkV : Val → Bool
  | .str s => strOk s
  | .int n => decide (-(2 ^ 31) ≤ n ∧ n < 2 ^ 31)
  | .map m => encOkE m

/-- Encodability of dict entries (keys and values). -/
def encOkE : Entries → Bool
  | .nil => true
  | .cons k v rest => strOk k && encOkV v && encOkE rest

end

/-- Modelled from the spec (§4.1): a null-terminated string on the wire,
one byte per (ASCII) character followed by the terminating `0x00`.  The
codec itself is the external `vdf` library (`vdf.binary_dumps` /
`vdf.binary_load`), not part of this repository. -/
def encStr (s : String) : List Nat := s.data.map Char.toNat ++ [0]

/-- Modelled from the spec (§4.1): a 32-bit signed little-endian integer as
four bytes. -/
def encInt32 (n : Int) : List Nat :=
  let m := (n % (2 ^ 32 : Int)).toNat
  [m % 256, m / 256 % 256, m / 65536 % 256, m / 16777216 % 256]

mutual

/-- Modelled from the spec (§4.1): one tagged entry of the wire format —
`0x01 key NUL value NUL` for a string value, `0x02 key NUL int32` for an
integer value, `0x00 key NUL entries 0x08` for a nested map. -/
def encodeEntry : String → Val → List Nat
  | k, .str s => 1 :: (encStr k ++ encStr s)
  | k, .int n => 2 :: (encStr k ++ encInt32 n)
  | k, .map m => 0 :: (encStr k ++ (encodeEntries m ++ [8]))

/-- Modelled from the spec: the concatenated tagged entries of a map. -/
def encodeEntries : Entries → List Nat
  | .nil => []
  | .cons k v rest => encodeEntry k v ++ encodeEntries rest

end

/-- Modelled from the spec (§4.1): `encode(Schema) -> bytes` — the document
is the sequence of the root map's entries followed by the final standalone
`0x08` closing the implicit document root. -/
def binary_dumps (root : Entries) : List Nat := encodeEntries root ++ [8]

mutual

/-- The number of map openings below one value: `0` for a scalar, the
entry count of the subtree for a nested map.  Used only to bound the
decoder's recursion depth. -/
def sizeV : Val → Nat
  | .str _ => 0
  | .int _ => 0
  | .map m => sizeE m

/-- The total number of entries of a tree plus one per map body (each map
body ends in one closing tag, which the decoder also steps through). -/
def sizeE : Entries → Nat
  | .nil => 1
  | .cons _ v rest => 1 + sizeV v + sizeE rest

end

/-- Modelled from the spec: reading one null-terminated string; `none` at
end of input before the terminator (truncated → `MalformedBinary`). -/
def readStr : List Nat → Option (String × List Nat)
  | [] => none
  | 0 :: r => some ("", r)
  | b :: r =>
    match readStr r with
    | some (s, rest) => some (String.mk (Char.ofNat b :: s.data), rest)
    | none => none

/-- Modelled from the spec: reading a little-endian 32-bit signed integer;
`none` when fewer than four bytes remain. -/
def readInt32 : List Nat → Option (Int × List Nat)
  | b0 :: b1 :: b2 :: b3 :: r =>
    let m : Int := (b0 : Int) + 256 * b1 + 65536 * b2 + 16777216 * b3
    some (if m < 2 ^ 31 then m else m - 2 ^ 32, r)
  | [] => none
  | [_] => none
  | [_, _] => none
  | [_, _, _] => none

/-- Modelled from the spec (§4.1): `decode` of one map body — tagged entries
until the closing `0x08`.  An unknown type byte or end of input before the
matching `0x08` is `MalformedBinary` (`none`).  The recursion is bounded by
a fuel argument; every recursive call is made after at least one input byte
has been consumed, so a fuel of the input length always suffices and the
bound is a termination device only. -/
def decodeEntries : Nat → List Nat → Option (Entries × List Nat)
  | 0, _ => none
  | _ + 1, [] => none
  | _ + 1, 8 :: r => some (.nil, r)
  | fuel + 1, 0 :: r =>
    match readStr r with
    | none => none
    | some (k, r1) =>
      match decodeEntries fuel r1 with
      | none => none
      | some (inner, r2) =>
        match decodeEntries fuel r2 with
        | none => none
        | some (rest, r3) => some (.cons k (.map inner) rest, r3)
  | fuel + 1, 1 :: r =>
    match readStr r with
    | none => none
    | some (k, r1) =>
      match readStr r1 with
      | none => none
      | some (v, r2) =>
        match decodeEntries fuel r2 with
        | none => none
        | some (rest, r3) => some (.cons k (.str v) rest, r3)
  | fuel + 1, 2 :: r =>
    match readStr r with
    | none => none
    | some (k, r1) =>
      match readInt32 r1 with
      | none => none
      | some (n, r2) =>
        match decodeEntries fuel r2 with
        | none => none
        | some (rest, r3) => some (.cons k (.int n) rest, r3)
  | _ + 1, _ :: _ => none

/-- Modelled from the spec: `decode(bytes) -> Schema` — the document's
entries up to the final `0x08`, which must consume the entire input.  The
fuel `bytes.length + 1` dominates the recursion depth on every input. -/
def binary_load (bytes : List Nat) : Option Entries :=
  match decodeEntries (bytes.length + 1) bytes with
  | some (root, []) => some root
  | _ => none

-- -------------------------------------------------------------------
-- An object-heap embedding of `deep_merge`
-- (src/generate_schema_from_api.py:41-49), for the mutation question:
-- Python dicts are objects passed by reference, so a dict slot holds a
-- scalar inline or a reference to another dict object on the heap.
-- -------------------------------------------------------------------

/-- A Python value as stored in one dict slot: a scalar carried inline,
or a reference to a dict object living on the heap. -/
inductive PVal where
  | str (s : String)
  | int (n : Int)
  | ref (r : Nat)
deriving DecidableEq

/-- One dict object: its ordered key slots. -/
abbrev PDict := List (String × PVal)

/-- The object heap: every allocated dict object, keyed by its address. -/
abbrev Heap := List (Nat × PDict)

/-- The addresses allocated in a heap. -/
def domH (h : Heap) : List Nat := h.map (fun p => p.1)

/-- The dict object stored at address `r` (first match). -/
def lookupH : Heap → Nat → Option PDict
  | [], _ => none
  | (a, d) :: t, r => if a = r then some d else lookupH t r

/-- Replacing the dict object stored at address `r` in place. -/
def updateH : Heap → Nat → PDict → Heap
  | [], _, _ => []
  | (a, d) :: t, r, nd => if a = r then (a, nd) :: t else (a, d) :: updateH t r nd

/-- An address no object uses yet: one past the largest allocated one. -/
def freshRef (h : Heap) : Nat := (domH h).foldr (fun a b => max a b) 0 + 1

/-- Reading `d[k]` of one dict object. -/
def lookupD : PDict → String → Option PVal
  | [], _ => none
  | (k, v) :: t, key => if k = key then some v else lookupD t key

/-- Python dict assignment `d[k] = v`: overwrite in place keeping the
slot's position when the key exists, append a new slot otherwise. -/
def setD : PDict → String → PVal → PDict
  | [], key, v => [(key, v)]
  | (k, w) :: t, key, v => if k = key then (k, v) :: t else (k, w) :: setD t key v

/-- The addresses a dict object points at (its dict-valued slots). -/
def edgeRefs : PDict → List Nat
  | [] => []
  | (_, PVal.ref r) :: t => r :: edgeRefs t
  | _ :: t => edgeRefs t

/-- The addresses the object at `a` points at. -/
def edgesH (h : Heap) (a : Nat) : List Nat :=
  match lookupH h a with
  | some d => edgeRefs d
  | none => []

/-- Reachability over the heap's reference edges: the dict objects one can
walk to from `a`, i.e. the footprint of the Python tree rooted at `a`. -/
inductive Reach (h : Heap) (a : Nat) : Nat → Prop where
  | refl : Reach h a a
  | step : ∀ b c, Reach h a b → c ∈ edgesH h b → Reach h a c

mutual

/-- The function `deep_merge` over the object heap (`src`, `dst` are the addresses of
the two dict arguments); the result is the heap after the call.  `none`
models a raised exception or an exhausted recursion budget. -/
def deep_mergeH : Nat → Heap → Nat → Nat → Option Heap
  | 0, _, _, _ => none
  | fuel + 1, h, src, dst =>
    match lookupH h src with
    | none => none
    | some sd => mergeItemsH fuel h sd dst

/-- The `for key, value in source.items()` loop of `deep_merge`, mutating
the heap step by step.  A dict-valued source slot recurses into
`destination.setdefault(key, {})`: into the existing destination dict
object when the key holds one, onto a freshly allocated empty dict when
the key is absent; when the key holds a scalar the recursive call raises
on the first source item (`none`) and is a no-op when the nested source
dict is empty.  A scalar source slot is `destination[key] = value`. -/
def mergeItemsH : Nat → Heap → List (String × PVal) → Nat → Option Heap
  | 0, _, _, _ => none
  | _ + 1, h, [], _ => some h
  | fuel + 1, h, (key, value) :: rest, dst =>
    match value with
    | .ref sr =>
      match lookupH h dst with
      | none => none
      | some dd =>
        match lookupD dd key with
        | some (.ref dr) =>
          match deep_mergeH fuel h sr dr with
          | some h1 => mergeItemsH fuel h1 rest dst
          | none => none
        | some _ =>
          match lookupH h sr with
          | some [] => mergeItemsH fuel h rest dst
          | _ => none
        | none =>
          match deep_mergeH fuel
              ((freshRef h, ([] : PDict)) ::
                updateH h dst (setD dd key (.ref (freshRef h))))
              sr (freshRef h) with
          | some h2 => mergeItemsH fuel h2 rest dst
          | none => none
    | _ =>
      match lookupH h dst with
      | none => none
      | some dd => mergeItemsH fuel (updateH h dst (setD dd key value)) rest dst

end

/-- How one `deep_merge` call relates the heap before to the heap after,
seen from the destination root: the domain only grows, every old object
not reachable from the root is untouched, new edges out of old objects
point only at fresh objects, and fresh objects point only at fresh
objects. -/
structure Evolve (h : Heap) (root : Nat) (h' : Heap) : Prop where
  dom_mono : ∀ r, r ∈ domH h → r ∈ domH h'
  frame : ∀ r, r ∈ domH h → ¬ Reach h root r → lookupH h' r = lookupH h r
  old_edges : ∀ r, r ∈ domH h → ∀ x, x ∈ edgesH h' r → x ∈ edgesH h r ∨ x ∉ domH h
  new_edges : ∀ r, r ∉ domH h → ∀ x, x ∈ edgesH h' r → x ∉ domH h

-- ===================================================================
-- Theorems
-- ===================================================================

theorem getE_setE_self : ∀ (d : Entries) (k : String) (v : Val),
    getE (setE d k v) k = some v
  | .nil, k, v => by simp [setE, getE]
  | .cons k' w rest, k, v => by
    by_cases h : k' = k
    · simp [setE, getE, h]
    · simp [setE, getE, h, getE_setE_self rest k v]

theorem getE_setE_other : ∀ (d : Entries) (k k' : String) (v : Val),
    k' ≠ k → getE (setE d k v) k' = getE d k'
  | .nil, k, k', v, h => by simp [setE, getE, Ne.symm h]
  | .cons a w rest, k, k', v, h => by
    by_cases ha : a = k
    · subst ha
      simp [setE, getE, Ne.symm h]
    · simp only [setE, if_neg ha, getE]
      by_cases hb : a = k'
      · simp [hb]
      · simp [hb, getE_setE_other rest k k' v h]

theorem setE_same : ∀ (d : Entries) (k : String) (v : Val),
    getE d k = some v → setE d k v = d
  | .nil, k, v, h => by simp [getE] at h
  | .cons a w rest, k, v, h => by
    by_cases ha : a = k
    · subst ha
      simp [getE] at h
      simp [setE, h]
    · simp only [getE, if_neg ha] at h
      simp [setE, ha, setE_same rest k v h]

theorem getE_appendE_self : ∀ (d : Entries) (k : String) (v : Val),
    getE d k = none → getE (appendE d k v) k = some v
  | .nil, k, v, _ => by simp [appendE, getE]
  | .cons a w rest, k, v, h => by
    by_cases ha : a = k
    · simp [getE, ha] at h
    · simp only [getE, if_neg ha] at h
      simp [appendE, getE, ha, getE_appendE_self rest k v h]

theorem getE_appendE_other : ∀ (d : Entries) (k k' : String) (v : Val),
    k' ≠ k → getE (appendE d k v) k' = getE d k'
  | .nil, k, k', v, h => by simp [appendE, getE, Ne.symm h]
  | .cons a w rest, k, k', v, h => by
    by_cases hb : a = k'
    · simp [appendE, getE, hb]
    · simp [appendE, getE, hb, getE_appendE_other rest k k' v h]

/-- A merge whose source does not mention key `k` leaves the value at `k`
unchanged. -/
theorem mergeItems_getE_of_not_mem (fuel : Nat) :
    ∀ (src d d' : Entries) (k : String),
      (keysE src).contains k = false → mergeItems fuel src d = some d' →
      getE d' k = getE d k := by
  induction fuel with
  | zero => intro src d d' k _ h; simp [mergeItems] at h
  | succ fuel ih =>
    intro src d d' k hk h
    cases src with
    | nil =>
      simp [mergeItems] at h
      subst h; rfl
    | cons key value rest =>
      simp only [keysE, List.contains_cons, Bool.or_eq_false_iff] at hk
      obtain ⟨hk1, hk2⟩ := hk
      have hkne : k ≠ key := by
        intro hcontra; subst hcontra; simp at hk1
      cases value with
      | str s =>
        simp only [mergeItems] at h
        have := ih rest (setE d key (.str s)) d' k hk2 h
        rw [this, getE_setE_other _ _ _ _ hkne]
      | int n =>
        simp only [mergeItems] at h
        have := ih rest (setE d key (.int n)) d' k hk2 h
        rw [this, getE_setE_other _ _ _ _ hkne]
      | map sub =>
        cases hg : getE d key with
        | some w =>
          cases w with
          | map node =>
            cases hm : deep_merge fuel sub node with
            | none => simp [mergeItems, hg, hm] at h
            | some merged =>
              simp only [mergeItems, hg, hm] at h
              have := ih rest (setE d key (.map merged)) d' k hk2 h
              rw [this, getE_setE_other _ _ _ _ hkne]
          | str s =>
            cases sub with
            | nil =>
              simp only [mergeItems, hg] at h
              exact ih rest d d' k hk2 h
            | cons a b c => simp [mergeItems, hg] at h
          | int n =>
            cases sub with
            | nil =>
              simp only [mergeItems, hg] at h
              exact ih rest d d' k hk2 h
            | cons a b c => simp [mergeItems, hg] at h
        | none =>
          cases hm : deep_merge fuel sub .nil with
          | none => simp [mergeItems, hg, hm] at h
          | some merged =>
            simp only [mergeItems, hg, hm] at h
            have := ih rest (appendE d key (.map merged)) d' k hk2 h
            rw [this, getE_appendE_other _ _ _ _ hkne]

/-- Auxiliary idempotence for `deep_merge`/`mergeItems`, proved by induction
on the fuel: re-merging a well-formed source into the result of a successful
merge reproduces that result exactly. -/
theorem deep_merge_idem_aux :
    ∀ fuel : Nat,
      (∀ S D R : Entries, wfEntries S = true → deep_merge fuel S D = some R →
        deep_merge fuel S R = some R) ∧
      (∀ S D R : Entries, wfEntries S = true → mergeItems fuel S D = some R →
        mergeItems fuel S R = some R) := by
  intro fuel
  induction fuel with
  | zero =>
    constructor <;> intro S D R _ h <;> simp [deep_merge, mergeItems] at h
  | succ fuel ih =>
    obtain ⟨ihP, ihQ⟩ := ih
    refine ⟨?_, ?_⟩
    · intro S D R hwf h
      simp only [deep_merge] at h ⊢
      exact ihQ S D R hwf h
    · intro S D R hwf h
      cases S with
      | nil =>
        simp only [mergeItems, Option.some.injEq] at h
        subst h
        simp [mergeItems]
      | cons key value rest =>
        have h3 := hwf
        simp only [wfEntries, Bool.and_eq_true, Bool.not_eq_true'] at h3
        obtain ⟨⟨hnk, hwv⟩, hwr⟩ := h3
        cases value with
        | str s =>
          simp only [mergeItems] at h ⊢
          have hRk : getE R key = some (Val.str s) := by
            rw [mergeItems_getE_of_not_mem fuel rest _ R key hnk h, getE_setE_self]
          rw [setE_same R key (Val.str s) hRk]
          exact ihQ rest _ R hwr h
        | int n =>
          simp only [mergeItems] at h ⊢
          have hRk : getE R key = some (Val.int n) := by
            rw [mergeItems_getE_of_not_mem fuel rest _ R key hnk h, getE_setE_self]
          rw [setE_same R key (Val.int n) hRk]
          exact ihQ rest _ R hwr h
        | map sub =>
          have hws : wfEntries sub = true := by simpa [wfVal] using hwv
          cases hg : getE D key with
          | some w =>
            cases w with
            | map node =>
              cases hm : deep_merge fuel sub node with
              | none => simp [mergeItems, hg, hm] at h
              | some merged =>
                simp only [mergeItems, hg, hm] at h
                have hRk : getE R key = some (Val.map merged) := by
                  rw [mergeItems_getE_of_not_mem fuel rest _ R key hnk h, getE_setE_self]
                have hid : deep_merge fuel sub merged = some merged :=
                  ihP sub node merged hws hm
                simp only [mergeItems, hRk, hid]
                rw [setE_same R key (Val.map merged) hRk]
                exact ihQ rest _ R hwr h
            | str s =>
              cases sub with
              | nil =>
                simp only [mergeItems, hg] at h
                have hRk : getE R key = some (Val.str s) := by
                  rw [mergeItems_getE_of_not_mem fuel rest _ R key hnk h, hg]
                simp only [mergeItems, hRk]
                exact ihQ rest _ R hwr h
              | cons a b c => simp [mergeItems, hg] at h
            | int n =>
              cases sub with
              | nil =>
                simp only [mergeItems, hg] at h
                have hRk : getE R key = some (Val.int n) := by
                  rw [mergeItems_getE_of_not_mem fuel rest _ R key hnk h, hg]
                simp only [mergeItems, hRk]
                exact ihQ rest _ R hwr h
              | cons a b c => simp [mergeItems, hg] at h
          | none =>
            cases hm : deep_merge fuel sub .nil with
            | none => simp [mergeItems, hg, hm] at h
            | some merged =>
              simp only [mergeItems, hg, hm] at h
              have hRk : getE R key = some (Val.map merged) := by
                rw [mergeItems_getE_of_not_mem fuel rest _ R key hnk h,
                  getE_appendE_self D key _ hg]
              have hid : deep_merge fuel sub merged = some merged :=
                ihP sub .nil merged hws hm
              simp only [mergeItems, hRk, hid]
              rw [setE_same R key (Val.map merged) hRk]
              exact ihQ rest _ R hwr h

/-- C1: merging a schema tree `S` into the result of merging `S` into `D`
yields the same tree as merging once: `merge(S, merge(S, D)) == merge(S, D)`,
for every source tree `S` (well-formed, i.e. arising from Python dicts) and
every destination tree `D` for which the first merge succeeds.  `fuel` is any
recursion budget; a budget that completes the first merge completes the
second with the identical result. -/
theorem deep_merge_idempotent (fuel : Nat) (S D R : Entries)
    (hwf : wfEntries S = true) (h : deep_merge fuel S D = some R) :
    deep_merge fuel S R = some R :=
  (deep_merge_idem_aux fuel).1 S D R hwf h

/-- Witness for C1 at a concrete input:
`S = {"a": {"x": "1"}, "b": "2"}`, `D = {"b": "0", "c": "3"}`. -/
theorem deep_merge_idempotent_witness :
    wfEntries (.cons "a" (.map (.cons "x" (.str "1") .nil))
      (.cons "b" (.str "2") .nil)) = true ∧
    deep_merge 6
      (.cons "a" (.map (.cons "x" (.str "1") .nil)) (.cons "b" (.str "2") .nil))
      (.cons "b" (.str "0") (.cons "c" (.str "3") .nil)) =
      some (.cons "b" (.str "2") (.cons "c" (.str "3")
        (.cons "a" (.map (.cons "x" (.str "1") .nil)) .nil))) ∧
    deep_merge 6
      (.cons "a" (.map (.cons "x" (.str "1") .nil)) (.cons "b" (.str "2") .nil))
      (.cons "b" (.str "2") (.cons "c" (.str "3")
        (.cons "a" (.map (.cons "x" (.str "1") .nil)) .nil))) =
      some (.cons "b" (.str "2") (.cons "c" (.str "3")
        (.cons "a" (.map (.cons "x" (.str "1") .nil)) .nil))) :=
  ⟨rfl, rfl,
    deep_merge_idempotent 6
      (.cons "a" (.map (.cons "x" (.str "1") .nil)) (.cons "b" (.str "2") .nil))
      (.cons "b" (.str "0") (.cons "c" (.str "3") .nil))
      (.cons "b" (.str "2") (.cons "c" (.str "3")
        (.cons "a" (.map (.cons "x" (.str "1") .nil)) .nil)))
      rfl rfl⟩

theorem digitChar_toNat (n : Nat) (h : n < 10) : (Nat.digitChar n).toNat = 48 + n := by
  interval_cases n <;> rfl

theorem toDigitsCore_eq_decChars :
    ∀ (fuel n : Nat) (ds : List Char), n < 10 ^ (fuel + 1) →
      Nat.toDigitsCore 10 (fuel + 1) n ds = decChars n ++ ds := by
  intro fuel
  induction fuel with
  | zero =>
    intro n ds h
    have h9 : n < 10 := by simpa using h
    have h10 : n / 10 = 0 := Nat.div_eq_of_lt h9
    conv_lhs => rw [Nat.toDigitsCore]
    rw [if_pos h10, decChars]
    simp [h9, Nat.mod_eq_of_lt h9]
  | succ f ih =>
    intro n ds h
    by_cases hn : n < 10
    · have h10 : n / 10 = 0 := Nat.div_eq_of_lt hn
      conv_lhs => rw [Nat.toDigitsCore]
      rw [if_pos h10, decChars]
      simp [hn, Nat.mod_eq_of_lt hn]
    · have h10 : n / 10 ≠ 0 := by
        intro hc
        exact hn (by omega)
      have hlt : n / 10 < 10 ^ (f + 1) := by
        rw [Nat.div_lt_iff_lt_mul (by omega)]
        calc n < 10 ^ (f + 2) := h
          _ = 10 ^ (f + 1) * 10 := by ring
      conv_lhs => rw [Nat.toDigitsCore]
      rw [if_neg h10, ih (n / 10) (Nat.digitChar (n % 10) :: ds) hlt]
      conv_rhs => rw [decChars]
      rw [dif_neg hn]
      simp

theorem toDigits_eq_decChars (n : Nat) : Nat.toDigits 10 n = decChars n := by
  have h : n < 10 ^ (n + 1) := by
    calc n < 2 ^ n := Nat.lt_two_pow n
      _ ≤ 10 ^ n := Nat.pow_le_pow_left (by omega) n
      _ ≤ 10 ^ (n + 1) := Nat.pow_le_pow_right (by omega) (Nat.le_succ n)
  rw [Nat.toDigits, toDigitsCore_eq_decChars n n [] h, List.append_nil]

theorem decValue_decChars_aux :
    ∀ (n : Nat) (acc : Nat),
      List.foldl (fun acc c => acc * 10 + (c.toNat - 48)) acc (decChars n) =
        acc * 10 ^ (decChars n).length + n := by
  intro n
  induction n using Nat.strong_induction_on with
  | _ n ih =>
    intro acc
    by_cases h : n < 10
    · rw [decChars]
      simp [h, List.foldl, digitChar_toNat n h]
    · have hdiv : n / 10 < n := Nat.div_lt_self (by omega) (by omega)
      rw [decChars]
      simp only [h, dite_false]
      rw [List.foldl_append, ih (n / 10) hdiv acc]
      simp only [List.foldl, List.length_append, List.length_cons, List.length_nil]
      have hm : (Nat.digitChar (n % 10)).toNat - 48 = n % 10 := by
        rw [digitChar_toNat (n % 10) (Nat.mod_lt n (by omega))]
        omega
      rw [hm, pow_succ]
      have : acc * (10 ^ (decChars (n / 10)).length * 10) =
          acc * 10 ^ (decChars (n / 10)).length * 10 := by ring
      rw [this]
      omega

theorem decValue_decChars (n : Nat) : decValue (decChars n) = n := by
  rw [decValue, decValue_decChars_aux n 0]
  simp

theorem natRepr_injective {m n : Nat} (h : Nat.repr m = Nat.repr n) : m = n := by
  have hd : decChars m = decChars n := by
    have h2 : (Nat.toDigits 10 m).asString = (Nat.toDigits 10 n).asString := h
    rw [toDigits_eq_decChars, toDigits_eq_decChars] at h2
    have h3 := congrArg String.data h2
    simpa [List.asString] using h3
  calc m = decValue (decChars m) := (decValue_decChars m).symm
    _ = decValue (decChars n) := by rw [hd]
    _ = n := decValue_decChars n

theorem natToString_injective {m n : Nat} (h : toString m = toString n) : m = n :=
  natRepr_injective h

theorem setE_appendE : ∀ (d : Entries) (k : String) (v w : Val),
    getE d k = none → setE (appendE d k v) k w = appendE d k w
  | .nil, k, v, w, _ => by simp [appendE, setE]
  | .cons a b rest, k, v, w, h => by
    by_cases ha : a = k
    · simp [getE, ha] at h
    · simp only [getE, if_neg ha] at h
      simp [appendE, setE, ha, setE_appendE rest k v w h]

theorem addAch_absent (lang : String) (i : Nat) (a : Ach) (stats : Entries)
    (hA : getE stats (toString (i / 32 + 1)) = none) :
    addAch lang i a stats =
      appendE stats (toString (i / 32 + 1))
        (.map (.cons "type" (.str "4")
          (.cons "id" (.str (toString (i / 32 + 1)))
            (.cons "bits"
              (.map (.cons (toString (i % 32))
                (achBitDef lang (i / 32 + 1) (i % 32) a) .nil)) .nil)))) := by
  simp only [addAch, hA]
  rw [getE_appendE_self stats _ _ hA]
  simp only [newBlock]
  simp only [getE, setE, String.reduceEq, reduceIte]
  rw [setE_appendE stats _ _ _ hA]

theorem addAch_present (lang : String) (i : Nat) (a : Ach) (stats : Entries)
    (blk bits : Entries)
    (hA : getE stats (toString (i / 32 + 1)) = some (.map blk))
    (hB : getE blk "bits" = some (.map bits)) :
    addAch lang i a stats =
      setE stats (toString (i / 32 + 1))
        (.map (setE blk "bits"
          (.map (setE bits (toString (i % 32))
            (achBitDef lang (i / 32 + 1) (i % 32) a))))) := by
  simp only [addAch, hA, hB]

theorem blocksWF_nil : blocksWF .nil := by
  intro k v h
  simp [getE] at h

theorem blocksWF_addAch (lang : String) (i : Nat) (a : Ach) (stats : Entries)
    (hwf : blocksWF stats) : blocksWF (addAch lang i a stats) := by
  cases hA : getE stats (toString (i / 32 + 1)) with
  | none =>
    rw [addAch_absent lang i a stats hA]
    intro k v hk
    by_cases hkB : k = toString (i / 32 + 1)
    · subst hkB
      rw [getE_appendE_self stats _ _ hA] at hk
      exact ⟨_, _, ((Option.some.injEq _ _).mp hk).symm, rfl⟩
    · rw [getE_appendE_other stats _ k _ hkB] at hk
      exact hwf k v hk
  | some w =>
    obtain ⟨blk, bits, hw, hB⟩ := hwf _ w hA
    subst hw
    rw [addAch_present lang i a stats blk bits hA hB]
    intro k v hk
    by_cases hkB : k = toString (i / 32 + 1)
    · subst hkB
      rw [getE_setE_self] at hk
      exact ⟨_, _, ((Option.some.injEq _ _).mp hk).symm,
        getE_setE_self blk "bits"
          (Val.map (setE bits (toString (i % 32))
            (achBitDef lang (i / 32 + 1) (i % 32) a)))⟩
    · rw [getE_setE_other stats _ k _ hkB] at hk
      exact hwf k v hk

theorem statsBitDef_addAch_self (lang : String) (i : Nat) (a : Ach)
    (stats : Entries) (hwf : blocksWF stats) :
    statsBitDef (addAch lang i a stats) (toString (i / 32 + 1)) (toString (i % 32)) =
      some (achBitDef lang (i / 32 + 1) (i % 32) a) := by
  cases hA : getE stats (toString (i / 32 + 1)) with
  | none =>
    rw [addAch_absent lang i a stats hA]
    rw [statsBitDef, getE_appendE_self stats _ _ hA]
    simp [getE]
  | some w =>
    obtain ⟨blk, bits, hw, hB⟩ := hwf _ w hA
    subst hw
    rw [addAch_present lang i a stats blk bits hA hB]
    rw [statsBitDef, getE_setE_self]
    simp only []
    rw [getE_setE_self]
    simp only []
    rw [getE_setE_self]

theorem statsBitDef_addAch_other (lang : String) (i : Nat) (a : Ach)
    (stats : Entries) (k t : String) (hwf : blocksWF stats)
    (hne : k ≠ toString (i / 32 + 1) ∨ t ≠ toString (i % 32)) :
    statsBitDef (addAch lang i a stats) k t = statsBitDef stats k t := by
  by_cases hkB : k = toString (i / 32 + 1)
  · subst hkB
    have ht : t ≠ toString (i % 32) := by
      cases hne with
      | inl h => exact absurd rfl h
      | inr h => exact h
    cases hA : getE stats (toString (i / 32 + 1)) with
    | none =>
      rw [addAch_absent lang i a stats hA]
      rw [statsBitDef, getE_appendE_self stats _ _ hA]
      rw [statsBitDef, hA]
      simp [getE, Ne.symm ht]
    | some w =>
      obtain ⟨blk, bits, hw, hB⟩ := hwf _ w hA
      subst hw
      rw [addAch_present lang i a stats blk bits hA hB]
      rw [statsBitDef, getE_setE_self]
      simp only []
      rw [getE_setE_self]
      simp only []
      simp only [statsBitDef, hA, hB]
      exact getE_setE_other bits _ t _ ht
  · cases hA : getE stats (toString (i / 32 + 1)) with
    | none =>
      rw [addAch_absent lang i a stats hA]
      rw [statsBitDef, getE_appendE_other stats _ k _ hkB, statsBitDef]
    | some w =>
      obtain ⟨blk, bits, hw, hB⟩ := hwf _ w hA
      subst hw
      rw [addAch_present lang i a stats blk bits hA hB]
      rw [statsBitDef, getE_setE_other stats _ k _ hkB, statsBitDef]

theorem buildStatsAux_snoc (lang : String) :
    ∀ (l : List Ach) (i : Nat) (a : Ach) (stats : Entries),
      buildStatsAux lang i (l ++ [a]) stats =
        addAch lang (i + l.length) a (buildStatsAux lang i l stats) := by
  intro l
  induction l with
  | nil => intro i a stats; simp [buildStatsAux]
  | cons b rest ih =>
    intro i a stats
    have harith : i + 1 + rest.length = i + (rest.length + 1) := by omega
    rw [List.cons_append]
    simp only [buildStatsAux, List.length_cons]
    rw [ih (i + 1) a (addAch lang i b stats), harith]

theorem buildStatsAux_blocksWF (lang : String) :
    ∀ (l : List Ach) (i : Nat) (stats : Entries),
      blocksWF stats → blocksWF (buildStatsAux lang i l stats) := by
  intro l
  induction l with
  | nil => intro i stats h; exact h
  | cons a rest ih =>
    intro i stats h
    exact ih (i + 1) _ (blocksWF_addAch lang i a stats h)

theorem build_stats_blocksWF (lang : String) (achs : List Ach) :
    blocksWF (build_stats lang achs) :=
  buildStatsAux_blocksWF lang achs 0 .nil blocksWF_nil

/-- The central bit-packing fact: after building from the ordered record
list, the record at zero-based index `i` is stored at block `str(i/32+1)`,
bit `str(i%32)`, as the bit definition built from that record. -/
theorem build_stats_bit (lang : String) (achs : List Ach) (i : Nat)
    (h : i < achs.length) :
    statsBitDef (build_stats lang achs) (toString (i / 32 + 1)) (toString (i % 32)) =
      some (achBitDef lang (i / 32 + 1) (i % 32) achs[i]) := by
  induction achs using List.reverseRecOn with
  | nil => simp at h
  | append_singleton l a ih =>
    have hsnoc : build_stats lang (l ++ [a]) =
        addAch lang l.length a (build_stats lang l) := by
      rw [build_stats, buildStatsAux_snoc lang l 0 a Entries.nil, Nat.zero_add]
      rfl
    rw [hsnoc]
    by_cases hi : i < l.length
    · have hne : toString (i / 32 + 1) ≠ toString (l.length / 32 + 1) ∨
          toString (i % 32) ≠ toString (l.length % 32) := by
        by_cases hq : i / 32 = l.length / 32
        · right
          intro hc
          have := natToString_injective hc
          omega
        · left
          intro hc
          have := natToString_injective hc
          omega
      rw [statsBitDef_addAch_other lang l.length a _ _ _
        (build_stats_blocksWF lang l) hne]
      have hgl : (l ++ [a])[i] = l[i] := List.getElem_append_left hi
      rw [hgl]
      exact ih hi
    · have hil : i = l.length := by
        simp only [List.length_append, List.length_cons, List.length_nil] at h
        omega
      subst hil
      have hga : (l ++ [a])[l.length] = a := by
        simp
      rw [hga]
      exact statsBitDef_addAch_self lang l.length a _ (build_stats_blocksWF lang l)

theorem pySplit_ne_nil (sep : Char) : ∀ l : List Char, pySplit sep l ≠ []
  | [] => by simp [pySplit]
  | c :: rest => by
    cases hps : pySplit sep rest with
    | nil => simp [pySplit, hps]
    | cons g gs =>
      by_cases hc : c = sep <;> simp [pySplit, hps, hc]

theorem getLastD_irrel {α : Type} : ∀ (l : List α) (x y : α), l ≠ [] →
    l.getLastD x = l.getLastD y
  | [], _, _, h => absurd rfl h
  | a :: l, x, y, _ => by
    rw [List.getLastD_cons, List.getLastD_cons]

theorem pySplit_length (sep : Char) : ∀ l : List Char,
    (pySplit sep l).length = l.count sep + 1
  | [] => by simp [pySplit]
  | c :: rest => by
    cases hps : pySplit sep rest with
    | nil => exact absurd hps (pySplit_ne_nil sep rest)
    | cons g gs =>
      have ih := pySplit_length sep rest
      rw [hps] at ih
      simp only [List.length_cons] at ih
      by_cases hc : c = sep
      · subst hc
        simp [pySplit, hps, List.count_cons]
        omega
      · simp [pySplit, hps, hc, List.count_cons]
        omega

theorem lastSegL_not_mem (sep : Char) : ∀ l : List Char,
    ¬ sep ∈ (pySplit sep l).getLastD []
  | [] => by simp [pySplit]
  | c :: rest => by
    cases hps : pySplit sep rest with
    | nil => exact absurd hps (pySplit_ne_nil sep rest)
    | cons g gs =>
      have ih := lastSegL_not_mem sep rest
      rw [hps] at ih
      by_cases hc : c = sep
      · subst hc
        simpa [pySplit, hps] using ih
      · cases gs with
        | nil =>
          simp only [pySplit, hps, if_neg hc, List.getLastD_cons,
            List.getLastD_nil] at ih ⊢
          intro hmem
          cases hmem with
          | head => exact hc rfl
          | tail _ hm => exact ih hm
        | cons g2 gs2 =>
          simp only [pySplit, hps, if_neg hc, List.getLastD_cons] at ih ⊢
          exact ih

theorem lastSegL_suffix (sep : Char) : ∀ l : List Char,
    ∃ p, l = p ++ (pySplit sep l).getLastD [] ∧
      (p = [] ∨ p.getLast? = some sep)
  | [] => ⟨[], by simp [pySplit], Or.inl rfl⟩
  | c :: rest => by
    cases hps : pySplit sep rest with
    | nil => exact absurd hps (pySplit_ne_nil sep rest)
    | cons g gs =>
      obtain ⟨p, hp, hsel⟩ := lastSegL_suffix sep rest
      rw [hps] at hp
      by_cases hc : c = sep
      · subst hc
        refine ⟨c :: p, ?_, ?_⟩
        · simp [pySplit, hps, List.getLastD_cons]
          exact hp
        · right
          cases hsel with
          | inl hnil => subst hnil; rfl
          | inr hl =>
            rw [List.getLast?_cons]
            cases p with
            | nil => simp at hl
            | cons q qs => simpa [List.getLast?_cons] using hl
      · cases gs with
        | nil =>
          have hcount : rest.count sep = 0 := by
            have := pySplit_length sep rest
            rw [hps] at this
            simp at this
            omega
          have hnomem : ¬ sep ∈ rest := by
            intro hm
            have := List.count_pos_iff.mpr hm
            omega
          have hpnil : p = [] := by
            cases hsel with
            | inl h0 => exact h0
            | inr hl =>
              exfalso
              cases p with
              | nil => simp at hl
              | cons q qs =>
                apply hnomem
                rw [hp]
                have : sep ∈ q :: qs := List.mem_of_getLast?_eq_some hl
                exact List.mem_append.mpr (Or.inl this)
          subst hpnil
          simp only [List.nil_append] at hp
          refine ⟨[], ?_, Or.inl rfl⟩
          simp only [pySplit, hps, if_neg hc, List.getLastD_cons, List.getLastD]
          simp [hp]
        | cons g2 gs2 =>
          have hcount : 0 < rest.count sep := by
            have := pySplit_length sep rest
            rw [hps] at this
            simp at this
            omega
          have hmem : sep ∈ rest := by
            by_contra hno
            rw [List.count_eq_zero_of_not_mem hno] at hcount
            omega
          have hpne : p ≠ [] := by
            intro h0
            subst h0
            simp only [List.nil_append] at hp
            rw [hp] at hmem
            exact lastSegL_not_mem sep rest (by rw [hps]; exact hmem)
          refine ⟨c :: p, ?_, ?_⟩
          · simp only [pySplit, hps, if_neg hc, List.getLastD_cons] at hp ⊢
            simp [hp]
          · right
            rw [List.getLast?_cons]
            cases hsel with
            | inl h0 => exact absurd h0 hpne
            | inr hl =>
              cases p with
              | nil => exact absurd rfl hpne
              | cons q qs => simpa [List.getLast?_cons] using hl

/-- C3: the builder assigns the record at zero-based index `i` to block
`(i / 32) + 1` at bit `i % 32`; 33 records yield exactly the blocks `"1"`
(bits `"0"`..`"31"`) and `"2"` (bit `"0"` only), 32 records yield exactly
block `"1"` with bits `"0"`..`"31"`, and 0 records yield an empty stats
mapping rather than an error. -/
theorem build_stats_bit_packing :
    (∀ (lang : String) (achs : List Ach) (i : Nat) (h : i < achs.length),
      statsBitDef (build_stats lang achs) (toString (i / 32 + 1)) (toString (i % 32)) =
        some (achBitDef lang (i / 32 + 1) (i % 32) achs[i])) ∧
    keysE (build_stats "english" (demoRecords 33)) = ["1", "2"] ∧
    Option.map keysE (statsBits (build_stats "english" (demoRecords 33)) "1") =
      some ((List.range 32).map (fun j => toString j)) ∧
    Option.map keysE (statsBits (build_stats "english" (demoRecords 33)) "2") =
      some ["0"] ∧
    keysE (build_stats "english" (demoRecords 32)) = ["1"] ∧
    Option.map keysE (statsBits (build_stats "english" (demoRecords 32)) "1") =
      some ((List.range 32).map (fun j => toString j)) ∧
    build_stats "english" (demoRecords 0) = .nil :=
  ⟨fun lang achs i h => build_stats_bit lang achs i h,
    rfl, rfl, rfl, rfl, rfl, rfl⟩

/-- Witness for C3 at a concrete input: among 33 records, the record at
index 32 lands in block `"2"` at bit `"0"`. -/
theorem build_stats_bit_packing_witness :
    32 < (demoRecords 33).length ∧
    statsBitDef (build_stats "english" (demoRecords 33))
        (toString (32 / 32 + 1)) (toString (32 % 32)) =
      some (achBitDef "english" (32 / 32 + 1) (32 % 32) (demoAch 32)) :=
  ⟨by simp [demoRecords],
    build_stats_bit_packing.1 "english" (demoRecords 33) 32
      (by simp [demoRecords])⟩

/-- C9 counterexample: the claim says the stored icon strips any query
suffix; the code keeps everything after the last slash, so a URL with a
query string stores `"img.jpg?v=2"` where the claim requires `"img.jpg"`
(`specIconSegment`, stated from the claim's words). -/
theorem build_stats_icon_query_cex :
    Option.bind
      (statsBitDef
        (build_stats "english"
          [{ name := "A", displayName := "A", description := "", hidden := 0,
             icon := "http://cdn/app/img.jpg?v=2",
             icongray := "http://cdn/app/gray.jpg?v=2" }]) "1" "0")
      (fun v => bitDisplayField v "icon") = some (.str "img.jpg?v=2") ∧
    specIconSegment "http://cdn/app/img.jpg?v=2" = "img.jpg" ∧
    ("img.jpg?v=2" : String) ≠ "img.jpg" :=
  ⟨rfl, rfl, by decide⟩

/-- C9 (amended): for every achievement record, the builder stores in the
`icon` and `icon_gray` fields exactly the substring of the URL after its
last `/` — the final path segment with its directory prefix stripped but
any query suffix retained: the stored string contains no `/` and the URL is
a (possibly empty) slash-terminated prefix followed by the stored string. -/
theorem build_stats_icon_fields (lang : String) (achs : List Ach) (i : Nat)
    (h : i < achs.length) :
    Option.bind
      (statsBitDef (build_stats lang achs) (toString (i / 32 + 1)) (toString (i % 32)))
      (fun v => bitDisplayField v "icon") =
        some (.str (lastSegment achs[i].icon)) ∧
    Option.bind
      (statsBitDef (build_stats lang achs) (toString (i / 32 + 1)) (toString (i % 32)))
      (fun v => bitDisplayField v "icon_gray") =
        some (.str (lastSegment achs[i].icongray)) ∧
    ¬ '/' ∈ (lastSegment achs[i].icon).data ∧
    ∃ p, achs[i].icon.data = p ++ (lastSegment achs[i].icon).data ∧
      (p = [] ∨ p.getLast? = some '/') := by
  have hbit := build_stats_bit lang achs i h
  refine ⟨?_, ?_, ?_, ?_⟩
  · rw [hbit]
    simp [achBitDef, bitDisplayField, getE]
  · rw [hbit]
    simp [achBitDef, bitDisplayField, getE]
  · exact lastSegL_not_mem '/' achs[i].icon.data
  · exact lastSegL_suffix '/' achs[i].icon.data

/-- Witness for the amended C9 at a concrete record list. -/
theorem build_stats_icon_fields_witness :
    0 < ([demoAch 0] : List Ach).length ∧
    (Option.bind
      (statsBitDef (build_stats "english" [demoAch 0])
        (toString (0 / 32 + 1)) (toString (0 % 32)))
      (fun v => bitDisplayField v "icon") =
        some (.str (lastSegment (demoAch 0).icon)) ∧
    Option.bind
      (statsBitDef (build_stats "english" [demoAch 0])
        (toString (0 / 32 + 1)) (toString (0 % 32)))
      (fun v => bitDisplayField v "icon_gray") =
        some (.str (lastSegment (demoAch 0).icongray)) ∧
    ¬ '/' ∈ (lastSegment (demoAch 0).icon).data ∧
    ∃ p, (demoAch 0).icon.data = p ++ (lastSegment (demoAch 0).icon).data ∧
      (p = [] ∨ p.getLast? = some '/')) :=
  ⟨by decide, build_stats_icon_fields "english" [demoAch 0] 0 (by decide)⟩

/-- C10: `read_section` returns the caller-supplied default when the key is
present in a parseable file with a null value (an empty section heading such
as `AdditionalApps:` with no items), never Python `None`. -/
theorem read_section_null_default (config : List (String × YVal)) (key : String)
    (default : YVal) (h : yLookup config key = some .null) :
    read_section (.ok (some config)) key default = default := by
  cases config with
  | nil => simp [yLookup] at h
  | cons e rest => simp [read_section, h]

/-- Witness for C10 at a concrete input. -/
theorem read_section_null_default_witness :
    yLookup [("AdditionalApps", YVal.null)] "AdditionalApps" = some .null ∧
    read_section (.ok (some [("AdditionalApps", YVal.null)])) "AdditionalApps"
      (.ylist []) = .ylist [] :=
  ⟨rfl, read_section_null_default [("AdditionalApps", .null)] "AdditionalApps"
    (.ylist []) rfl⟩

/-- C6 counterexample: reading a present but corrupt JSON cache file yields
the empty mapping, exactly as a missing file does — corruption of the cache
is silently recovered by substituting empty data (after a printed warning),
contradicting the claim that only absence resolves to empty. -/
theorem read_cache_corrupt_empty_cex :
    read_cache (.corrupt "Expecting value: line 1 column 1 (char 0)") = [] ∧
    read_cache .missing = [] :=
  ⟨rfl, rfl⟩

/-- C6 (amended): `read_section` surfaces a YAML parse error on a present
file by returning Python `None` instead of the caller's default (so the
caller can detect it whenever the default is not `None`), and only a
missing file resolves to the default; `read_cache`, however, recovers from
a corrupt present cache file by returning the empty mapping, the same value
as for a missing file. -/
theorem read_errors_propagation :
    (∀ (key : String) (d : YVal) (msg : String),
      read_section (.corrupt msg) key d = .null) ∧
    (∀ (key : String) (d : YVal) (msg : String), d ≠ .null →
      read_section (.corrupt msg) key d ≠ d) ∧
    (∀ (key : String) (d : YVal), read_section .missing key d = d) ∧
    (∀ msg, read_cache (.corrupt msg) = []) ∧
    read_cache .missing = [] := by
  refine ⟨fun _ _ _ => rfl, ?_, fun _ _ => rfl, fun _ => rfl, rfl⟩
  intro key d msg hd hc
  exact hd hc.symm

/-- Witness for the amended C6 at a concrete input. -/
theorem read_errors_propagation_witness :
    (YVal.ylist [] ≠ YVal.null) ∧
    read_section (.corrupt "could not determine a constructor") "AdditionalApps"
      (.ylist []) ≠ .ylist [] :=
  ⟨fun h => YVal.noConfusion h,
    read_errors_propagation.2.1 "AdditionalApps" (.ylist [])
      "could not determine a constructor" (fun h => YVal.noConfusion h)⟩

theorem findHeading_lt (key : String) : ∀ (lines : List Line) (si : Nat),
    findHeading key lines = some si → si < lines.length
  | [], si, h => by simp [findHeading] at h
  | l :: rest, si, h => by
    by_cases hl : isHeading key l
    · simp [findHeading, hl] at h
      simp only [List.length_cons]
      omega
    · simp only [findHeading, hl, if_false, Bool.false_eq_true, Option.map_eq_some'] at h
      obtain ⟨j, hj, rfl⟩ := h
      have := findHeading_lt key rest j hj
      simp only [List.length_cons]
      omega

theorem findHeading_take (key : String) : ∀ (lines : List Line) (si : Nat),
    findHeading key lines = some si → findHeading key (lines.take (si + 1)) = some si
  | [], si, h => by simp [findHeading] at h
  | l :: rest, si, h => by
    by_cases hl : isHeading key l
    · simp [findHeading, hl] at h
      subst h
      simp [List.take, findHeading, hl]
    · simp only [findHeading, hl, if_false, Bool.false_eq_true, Option.map_eq_some'] at h
      obtain ⟨j, hj, rfl⟩ := h
      have ih := findHeading_take key rest j hj
      simp [List.take, findHeading, hl, ih]

theorem findHeading_append_left (key : String) : ∀ (xs ys : List Line) (si : Nat),
    findHeading key xs = some si → findHeading key (xs ++ ys) = some si
  | [], _, si, h => by simp [findHeading] at h
  | l :: rest, ys, si, h => by
    by_cases hl : isHeading key l
    · simp [findHeading, hl] at h
      subst h
      simp [findHeading, hl]
    · simp only [findHeading, hl, if_false, Bool.false_eq_true, Option.map_eq_some'] at h
      obtain ⟨j, hj, rfl⟩ := h
      simp [findHeading, hl, findHeading_append_left key rest ys j hj]

theorem getD_append_lt {α : Type} : ∀ (xs ys : List α) (i : Nat) (d : α),
    i < xs.length → (xs ++ ys).getD i d = xs.getD i d
  | [], _, i, _, h => by simp at h
  | x :: xs, ys, 0, d, _ => rfl
  | x :: xs, ys, i + 1, d, h => by
    simp only [List.cons_append, List.getD_cons_succ]
    exact getD_append_lt xs ys i d (by simpa using h)

theorem getD_take_lt {α : Type} : ∀ (l : List α) (n i : Nat) (d : α),
    i < n → (l.take n).getD i d = l.getD i d
  | [], _, _, _, _ => by simp
  | x :: xs, n + 1, 0, d, _ => rfl
  | x :: xs, n + 1, i + 1, d, h => by
    simp only [List.take_succ_cons, List.getD_cons_succ]
    exact getD_take_lt xs n i d (by omega)

theorem dropWhile_append_all {α : Type} (p : α → Bool) :
    ∀ (xs ys : List α), (∀ x ∈ xs, p x = true) →
      (xs ++ ys).dropWhile p = ys.dropWhile p
  | [], ys, _ => rfl
  | x :: xs, ys, h => by
    have hx : p x = true := h x (by simp)
    simp only [List.cons_append, List.dropWhile_cons, hx, if_true]
    exact dropWhile_append_all p xs ys (fun a ha => h a (by simp [ha]))

theorem dropWhile_dropWhile {α : Type} (p : α → Bool) :
    ∀ l : List α, (l.dropWhile p).dropWhile p = l.dropWhile p
  | [] => rfl
  | x :: xs => by
    by_cases hx : p x
    · simp only [List.dropWhile_cons, hx, if_true]
      exact dropWhile_dropWhile p xs
    · simp only [List.dropWhile_cons, hx]
      simp [hx]

theorem mem_dropWhile_of_not {α : Type} (p : α → Bool) :
    ∀ (l : List α) (c : α), c ∈ l → p c = false → c ∈ l.dropWhile p
  | [], c, hc, _ => by simp at hc
  | x :: xs, c, hc, hp => by
    by_cases hx : p x
    · simp only [List.dropWhile_cons, hx, if_true]
      cases hc with
      | head => rw [hx] at hp; exact absurd hp (by simp)
      | tail _ hm => exact mem_dropWhile_of_not p xs c hm hp
    · simp only [List.dropWhile_cons, hx]
      simpa [hx] using hc

theorem pyStrip_ne_nil (l : Line) (c : Char) (hc : c ∈ l) (hw : isWS c = false) :
    (pyStrip l).isEmpty = false := by
  cases hps : pyStrip l with
  | cons a rest => rfl
  | nil =>
    exfalso
    rw [pyStrip] at hps
    have h2 : (l.dropWhile isWS).reverse.dropWhile isWS = [] := by
      have := congrArg List.reverse hps
      simpa using this
    have h4 := List.dropWhile_eq_nil_iff.mp h2
    have h5 : c ∈ l.dropWhile isWS := mem_dropWhile_of_not isWS l c hc hw
    have h6 : c ∈ (l.dropWhile isWS).reverse := by simpa using h5
    rw [h4 c h6] at hw
    simp at hw

theorem leadingSpaces_replicate (m : Nat) (rest : Line) :
    m ≤ leadingSpaces (List.replicate m ' ' ++ rest) := by
  induction m with
  | zero => omega
  | succ n ih =>
    have hstep : leadingSpaces (List.replicate (n + 1) ' ' ++ rest) =
        leadingSpaces (List.replicate n ' ' ++ rest) + 1 := by
      simp [List.replicate_succ, leadingSpaces, List.takeWhile_cons]
    omega

theorem pyFindAux_ge (pat : Line) : ∀ (l : Line) (i : Nat), -1 ≤ pyFindAux pat i l
  | [], i => by
    simp only [pyFindAux]
    split
    · omega
    · omega
  | c :: rest, i => by
    simp only [pyFindAux]
    split
    · omega
    · exact pyFindAux_ge pat rest (i + 1)

theorem pyFind_ge (l pat : Line) : -1 ≤ pyFind l pat := pyFindAux_ge pat l 0

theorem renderItems_sectionItem (indent : Int) (hind : -1 ≤ indent)
    (data : SData) : ∀ l ∈ renderItems indent data, isSectionItem indent l = true := by
  intro l hl
  have hspaces : ∀ rest : Line,
      indent < (leadingSpaces (List.replicate (indent + 2).toNat ' ' ++ rest) : Int) := by
    intro rest
    have h1 := leadingSpaces_replicate (indent + 2).toNat rest
    have h2 : ((indent + 2).toNat : Int) = indent + 2 := Int.toNat_of_nonneg (by omega)
    omega
  cases data with
  | ints li =>
    simp only [renderItems, List.mem_map] at hl
    obtain ⟨n, _, rfl⟩ := hl
    rw [List.append_assoc]
    have hmem : '-' ∈ List.replicate (indent + 2).toNat ' ' ++
        (("- " ++ toString n).data ++ ['\n']) := by
      rw [String.data_append]
      refine List.mem_append.mpr (Or.inr (List.mem_append.mpr (Or.inl ?_)))
      exact List.mem_append.mpr (Or.inl (by simp [String.data]))
    rw [isSectionItem]
    rw [pyStrip_ne_nil _ '-' hmem (by rfl)]
    simp only [Bool.not_false, Bool.true_and, decide_eq_true_eq]
    exact hspaces _
  | pairs lp =>
    simp only [renderItems, List.mem_map] at hl
    obtain ⟨p, _, rfl⟩ := hl
    rw [List.append_assoc]
    have hmem : ':' ∈ List.replicate (indent + 2).toNat ' ' ++
        ((toString p.1 ++ ": " ++ toString p.2).data ++ ['\n']) := by
      rw [String.data_append, String.data_append]
      refine List.mem_append.mpr (Or.inr (List.mem_append.mpr (Or.inl ?_)))
      refine List.mem_append.mpr (Or.inl (List.mem_append.mpr (Or.inr ?_)))
      simp [String.data]
    rw [isSectionItem]
    rw [pyStrip_ne_nil _ ':' hmem (by rfl)]
    simp only [Bool.not_false, Bool.true_and, decide_eq_true_eq]
    exact hspaces _

/-- When the file already contains a heading line for `key`, writing the same
data twice produces exactly the text of writing it once. -/
theorem write_section_heading_idem (key : String) (data : SData)
    (lines0 : List Line) (si : Nat) (h : findHeading key lines0 = some si) :
    write_section key data (write_section key data lines0) =
      write_section key data lines0 := by
  have hne : lines0 ≠ [] := by
    intro h0
    rw [h0] at h
    simp [findHeading] at h
  have hempty : lines0.isEmpty = false := by
    cases lines0 with
    | nil => exact absurd rfl hne
    | cons a l => rfl
  have hsi : si < lines0.length := findHeading_lt key lines0 si h
  have hW : write_section key data lines0 =
      lines0.take (si + 1) ++
        (renderItems (pyFind (lines0.getD si []) key.data) data ++
          (lines0.drop (si + 1)).dropWhile
            (isSectionItem (pyFind (lines0.getD si []) key.data))) := by
    simp only [write_section, hempty, Bool.false_eq_true, if_false, h,
      spliceSection, List.append_assoc]
  set indent := pyFind (lines0.getD si []) key.data with hInd
  set A := lines0.take (si + 1) with hA
  set R := renderItems indent data with hR
  set B := (lines0.drop (si + 1)).dropWhile (isSectionItem indent) with hB
  have hAlen : A.length = si + 1 := by
    rw [hA, List.length_take]
    omega
  have hAne : A ≠ [] := by
    intro h0
    rw [h0] at hAlen
    simp at hAlen
  rw [hW]
  have hWempty : (A ++ (R ++ B)).isEmpty = false := by
    cases hAA : A with
    | nil => exact absurd hAA hAne
    | cons x xs => rfl
  have hfhA : findHeading key A = some si := findHeading_take key lines0 si h
  have hfhW : findHeading key (A ++ (R ++ B)) = some si :=
    findHeading_append_left key A (R ++ B) si hfhA
  have hgetD : (A ++ (R ++ B)).getD si [] = lines0.getD si [] := by
    rw [getD_append_lt A (R ++ B) si [] (by omega)]
    rw [hA, getD_take_lt lines0 (si + 1) si [] (by omega)]
  have htake : (A ++ (R ++ B)).take (si + 1) = A := List.take_left' hAlen
  have hdrop : (A ++ (R ++ B)).drop (si + 1) = R ++ B := by
    rw [← hAlen]
    exact List.drop_left A (R ++ B)
  have hind_ge : -1 ≤ indent := pyFind_ge _ _
  have hdw : (R ++ B).dropWhile (isSectionItem indent) = B := by
    rw [dropWhile_append_all _ R B (renderItems_sectionItem indent hind_ge data),
      hB, dropWhile_dropWhile]
  simp only [write_section, hWempty, Bool.false_eq_true, if_false, hfhW,
    spliceSection, hgetD, ← hInd, htake, hdrop, hdw, List.append_assoc]

/-- Shape of `write_section` when a heading line exists: prefix through the
heading, then the rendered lines, then everything after the section extent. -/
theorem write_section_heading_eq (key : String) (data : SData)
    (lines0 : List Line) (si : Nat) (h : findHeading key lines0 = some si) :
    write_section key data lines0 =
      lines0.take (si + 1) ++
        (renderItems (pyFind (lines0.getD si []) key.data) data ++
          (lines0.drop (si + 1)).dropWhile
            (isSectionItem (pyFind (lines0.getD si []) key.data))) := by
  have hne : lines0 ≠ [] := by
    intro h0
    rw [h0] at h
    simp [findHeading] at h
  have hempty : lines0.isEmpty = false := by
    cases lines0 with
    | nil => exact absurd rfl hne
    | cons a l => rfl
  simp only [write_section, hempty, Bool.false_eq_true, if_false, h,
    spliceSection, List.append_assoc]

/-- C4 (amended): when the file already contains a line whose stripped
content starts with `"{key}:"`, rewriting the same value twice is
byte-identical to rewriting it once, with the rendered section lines
deduplicated and sorted ascending; in particular, for a file consisting of
the heading `AdditionalApps:`, writing `[100, 50, 50]` once or twice both
give the item lines `"  - 50"` then `"  - 100"`.  (When the heading is
absent from a nonempty file, the write is not idempotent — see the
counterexample.) -/
theorem write_section_idempotent_rewrite :
    (∀ (key : String) (data : SData) (lines0 : List Line) (si : Nat),
      findHeading key lines0 = some si →
        write_section key data (write_section key data lines0) =
          write_section key data lines0) ∧
    write_section "AdditionalApps" (.ints [100, 50, 50])
        [("AdditionalApps:\n").data] =
      [("AdditionalApps:\n").data, ("  - 50\n").data, ("  - 100\n").data] ∧
    write_section "AdditionalApps" (.ints [100, 50, 50])
        (write_section "AdditionalApps" (.ints [100, 50, 50])
          [("AdditionalApps:\n").data]) =
      [("AdditionalApps:\n").data, ("  - 50\n").data, ("  - 100\n").data] ∧
    renderItems 0 (.ints [100, 50, 50]) = [("  - 50\n").data, ("  - 100\n").data] :=
  ⟨write_section_heading_idem, rfl, rfl, rfl⟩

/-- Witness for the amended C4 at a concrete input containing the heading. -/
theorem write_section_idempotent_rewrite_witness :
    findHeading "AdditionalApps" demoLines = some 1 ∧
    write_section "AdditionalApps" (.ints [100, 50, 50])
        (write_section "AdditionalApps" (.ints [100, 50, 50]) demoLines) =
      write_section "AdditionalApps" (.ints [100, 50, 50]) demoLines :=
  ⟨rfl, write_section_idempotent_rewrite.1 "AdditionalApps" (.ints [100, 50, 50])
    demoLines 1 rfl⟩

/-- C4 counterexample: on a nonempty file that lacks the `AdditionalApps:`
heading, `start_index = len(lines) - 2` points at the line before the
appended heading, the heading is spliced away and the item lines are
appended with a single-space indent, so a second identical write appends
them again: the double write differs from the single write. -/
theorem write_section_not_idempotent_cex :
    write_section "AdditionalApps" (.ints [100, 50, 50])
        (write_section "AdditionalApps" (.ints [100, 50, 50])
          [("foo: 1\n").data]) ≠
      write_section "AdditionalApps" (.ints [100, 50, 50]) [("foo: 1\n").data] := by
  decide

/-- C5: a `write_section` call leaves every line up to and including the
heading unchanged in place, and everything after the section's extent is the
unchanged tail of the original file; when no heading line exists, every
original line survives unchanged as a prefix of the result (the new content
is only appended). -/
theorem write_section_frame :
    ∀ (key : String) (data : SData) (lines0 : List Line),
      (∀ si, findHeading key lines0 = some si →
        (∀ j, j ≤ si →
          (write_section key data lines0).getD j [] = lines0.getD j []) ∧
        (write_section key data lines0).drop
            (si + 1 +
              (renderItems (pyFind (lines0.getD si []) key.data) data).length) =
          lines0.drop (si + 1 +
            ((lines0.drop (si + 1)).takeWhile
              (isSectionItem (pyFind (lines0.getD si []) key.data))).length)) ∧
      (findHeading key lines0 = none →
        (write_section key data lines0).take lines0.length = lines0) := by
  intro key data lines0
  constructor
  · intro si h
    have hsi : si < lines0.length := findHeading_lt key lines0 si h
    rw [write_section_heading_eq key data lines0 si h]
    set indent := pyFind (lines0.getD si []) key.data with hInd
    set A := lines0.take (si + 1) with hA
    set R := renderItems indent data with hR
    set B := (lines0.drop (si + 1)).dropWhile (isSectionItem indent) with hB
    have hAlen : A.length = si + 1 := by
      rw [hA, List.length_take]
      omega
    constructor
    · intro j hj
      rw [getD_append_lt A (R ++ B) j [] (by omega)]
      rw [hA, getD_take_lt lines0 (si + 1) j [] (by omega)]
    · have h1 : A ++ (R ++ B) = (A ++ R) ++ B := by
        rw [List.append_assoc]
      rw [h1]
      have h2 : (A ++ R).length = si + 1 + R.length := by
        rw [List.length_append, hAlen]
      have h3 : ((A ++ R) ++ B).drop (si + 1 + R.length) = B := by
        rw [← h2]
        exact List.drop_left (A ++ R) B
      rw [h3, hB]
      have h4 : lines0.drop (si + 1 +
          ((lines0.drop (si + 1)).takeWhile (isSectionItem indent)).length) =
          ((lines0.drop (si + 1)).takeWhile (isSectionItem indent) ++
            (lines0.drop (si + 1)).dropWhile (isSectionItem indent)).drop
            (((lines0.drop (si + 1)).takeWhile (isSectionItem indent)).length) := by
        rw [List.takeWhile_append_dropWhile, List.drop_drop]
      rw [h4, List.drop_left]
  · intro h
    cases hl0 : lines0 with
    | nil => simp
    | cons x xs =>
      have hempty : lines0.isEmpty = false := by rw [hl0]; rfl
      rw [← hl0]
      have hlen : 1 ≤ lines0.length := by rw [hl0]; simp
      simp only [write_section, hempty, Bool.false_eq_true, if_false, h,
        Bool.not_false, Bool.true_and]
      by_cases hNL : endsNL (lines0.getLastD [])
      · simp only [hNL, Bool.not_true, Bool.false_eq_true, if_false,
          spliceSection]
        have hlen2 : (lines0 ++ [('\n' :: key.data) ++ [':', '\n']]).length - 2 + 1 =
            lines0.length := by
          simp only [List.length_append, List.length_cons, List.length_nil]
          omega
        rw [hlen2, List.take_left' rfl, List.append_assoc, List.take_left' rfl]
      · simp only [hNL, Bool.not_false, if_true, spliceSection]
        have hlen2 : ((lines0 ++ [['\n']]) ++ [('\n' :: key.data) ++ [':', '\n']]).length - 2 + 1 =
            (lines0 ++ [['\n']]).length := by
          simp only [List.length_append, List.length_cons, List.length_nil]
          omega
        rw [hlen2, List.take_left' rfl, List.append_assoc, List.append_assoc,
          List.take_left' rfl]

/-- Witness for C5 at concrete inputs: a heading-present write on
`demoLines` and a heading-absent write with a different key. -/
theorem write_section_frame_witness :
    ((write_section "AdditionalApps" (.ints [5]) demoLines).getD 0 [] =
      demoLines.getD 0 []) ∧
    ((write_section "AdditionalApps" (.ints [5]) demoLines).drop
        (1 + 1 + (renderItems (pyFind (demoLines.getD 1 [])
          ("AdditionalApps").data) (.ints [5])).length) =
      demoLines.drop (1 + 1 + ((demoLines.drop (1 + 1)).takeWhile
        (isSectionItem (pyFind (demoLines.getD 1 [])
          ("AdditionalApps").data))).length)) ∧
    ((write_section "Missing" (.ints [5]) demoLines).take demoLines.length =
      demoLines) :=
  ⟨((write_section_frame "AdditionalApps" (.ints [5]) demoLines).1 1 rfl).1 0
      (by omega),
    ((write_section_frame "AdditionalApps" (.ints [5]) demoLines).1 1 rfl).2,
    (write_section_frame "Missing" (.ints [5]) demoLines).2 rfl⟩

theorem mem_insertBy {α : Type} (le : α → α → Bool) (x a : α) :
    ∀ l : List α, a ∈ insertBy le x l ↔ a = x ∨ a ∈ l
  | [] => by simp [insertBy]
  | b :: rest => by
    by_cases hb : le x b
    · simp [insertBy, hb]
    · simp [insertBy, hb, mem_insertBy le x a rest]
      tauto

theorem mem_sortBy {α : Type} (le : α → α → Bool) (a : α) :
    ∀ l : List α, a ∈ sortBy le l ↔ a ∈ l
  | [] => by simp [sortBy]
  | b :: rest => by
    simp [sortBy, mem_insertBy, mem_sortBy le a rest]

theorem mem_pyDedupAux (a : Int) :
    ∀ (l : List Int) (seen : List Int),
      a ∈ pyDedupAux seen l ↔ (a ∈ l ∧ ¬ a ∈ seen)
  | [], seen => by simp [pyDedupAux]
  | b :: rest, seen => by
    by_cases hb : seen.contains b
    · have hbmem : b ∈ seen := by simpa using hb
      simp only [pyDedupAux, hb, if_true, mem_pyDedupAux a rest seen,
        List.mem_cons]
      constructor
      · intro ⟨h1, h2⟩
        exact ⟨Or.inr h1, h2⟩
      · intro ⟨h1, h2⟩
        cases h1 with
        | inl he => exact absurd (he ▸ hbmem) h2
        | inr hr => exact ⟨hr, h2⟩
    · simp only [pyDedupAux, hb, Bool.false_eq_true, if_false,
        mem_pyDedupAux a rest (b :: seen), List.mem_cons]
      have hbns : ¬ b ∈ seen := by simpa using hb
      by_cases hab : a = b
      · subst hab
        tauto
      · tauto

theorem mem_pySortedSet (a : Int) (l : List Int) :
    a ∈ pySortedSet l ↔ a ∈ l := by
  rw [pySortedSet, mem_sortBy, mem_pyDedupAux]
  simp

theorem insertBy_sorted_le (x : Int) :
    ∀ l : List Int, List.Pairwise (fun a b => a ≤ b) l →
      List.Pairwise (fun a b => a ≤ b) (insertBy (fun a b => a ≤ b) x l)
  | [], _ => by simp [insertBy]
  | b :: rest, hp => by
    rw [List.pairwise_cons] at hp
    obtain ⟨hb, hrest⟩ := hp
    by_cases hxb : x ≤ b
    · have he : insertBy (fun a b => a ≤ b) x (b :: rest) = x :: b :: rest := by
        simp [insertBy, hxb]
      rw [he, List.pairwise_cons]
      refine ⟨?_, by rw [List.pairwise_cons]; exact ⟨hb, hrest⟩⟩
      intro y hy
      cases hy with
      | head => exact hxb
      | tail _ hm => exact le_trans hxb (hb y hm)
    · have he : insertBy (fun a b => a ≤ b) x (b :: rest) =
          b :: insertBy (fun a b => a ≤ b) x rest := by
        simp [insertBy, hxb]
      rw [he, List.pairwise_cons]
      constructor
      · intro y hy
        rw [mem_insertBy] at hy
        cases hy with
        | inl he2 => exact he2 ▸ le_of_not_le hxb
        | inr hm => exact hb y hm
      · exact insertBy_sorted_le x rest hrest

theorem sortBy_sorted_le :
    ∀ l : List Int, List.Pairwise (fun a b => a ≤ b) (sortBy (fun a b => a ≤ b) l)
  | [] => by simp [sortBy]
  | b :: rest => by
    simp only [sortBy]
    exact insertBy_sorted_le b _ (sortBy_sorted_le rest)

theorem insertBy_nodup (x : Int) :
    ∀ l : List Int, ¬ x ∈ l → l.Nodup →
      (insertBy (fun a b => a ≤ b) x l).Nodup
  | [], _, _ => by simp [insertBy]
  | b :: rest, hx, hn => by
    rw [List.nodup_cons] at hn
    obtain ⟨hb, hrest⟩ := hn
    by_cases hxb : x ≤ b
    · have he : insertBy (fun a b => a ≤ b) x (b :: rest) = x :: b :: rest := by
        simp [insertBy, hxb]
      rw [he, List.nodup_cons, List.nodup_cons]
      exact ⟨by simpa using hx, hb, hrest⟩
    · have he : insertBy (fun a b => a ≤ b) x (b :: rest) =
          b :: insertBy (fun a b => a ≤ b) x rest := by
        simp [insertBy, hxb]
      rw [he, List.nodup_cons]
      constructor
      · rw [mem_insertBy]
        push_neg
        constructor
        · intro hbx
          exact hx (by simp [hbx])
        · exact hb
      · exact insertBy_nodup x rest (fun hm => hx (by simp [hm])) hrest

theorem sortBy_nodup :
    ∀ l : List Int, l.Nodup → (sortBy (fun a b => a ≤ b) l).Nodup
  | [], _ => by simp [sortBy]
  | b :: rest, hn => by
    rw [List.nodup_cons] at hn
    obtain ⟨hb, hrest⟩ := hn
    simp only [sortBy]
    exact insertBy_nodup b _ (fun hm => hb ((mem_sortBy _ b rest).mp hm))
      (sortBy_nodup rest hrest)

theorem pyDedupAux_nodup :
    ∀ (l : List Int) (seen : List Int), (pyDedupAux seen l).Nodup
  | [], _ => by simp [pyDedupAux]
  | b :: rest, seen => by
    by_cases hb : seen.contains b
    · simp only [pyDedupAux, hb, if_true]
      exact pyDedupAux_nodup rest seen
    · simp only [pyDedupAux, hb, Bool.false_eq_true, if_false, List.nodup_cons]
      constructor
      · rw [mem_pyDedupAux]
        push_neg
        intro _
        simp
      · exact pyDedupAux_nodup rest (b :: seen)

theorem pySortedSet_pairwise_lt (l : List Int) :
    List.Pairwise (fun a b => a < b) (pySortedSet l) := by
  have h1 := sortBy_sorted_le (pyDedupAux [] l)
  have h2 : (sortBy (fun a b => a ≤ b) (pyDedupAux [] l)).Nodup :=
    sortBy_nodup _ (pyDedupAux_nodup l [])
  have h3 := List.Pairwise.and h1 h2
  exact h3.imp (fun hab => lt_of_le_of_ne hab.1 hab.2)

/-- C7 counterexample: a manifest whose `apps` block sits one level deeper
inside a library folder entry.  The claim requires its digit keys to be
collected (`specParseAppIds`, stated from the claim's words, returns
`[42]`), but the code only looks at `libraryfolders/*/apps` and returns
`[]`. -/
theorem parse_libraryfolders_depth_cex :
    parse_libraryfolders_vdf
      ("\x22libraryfolders\x22 \x7b \x220\x22 \x7b \x22extra\x22 \x7b \x22apps\x22 \x7b \x2242\x22 \x221\x22 \x7d \x7d \x7d \x7d").data =
      [] ∧
    specParseAppIds
      ("\x22libraryfolders\x22 \x7b \x220\x22 \x7b \x22extra\x22 \x7b \x22apps\x22 \x7b \x2242\x22 \x221\x22 \x7d \x7d \x7d \x7d").data =
      [42] ∧
    ([] : List Int) ≠ [42] :=
  ⟨rfl, rfl, by decide⟩

/-- C7 (amended): `parse_libraryfolders_vdf` is total (a set of integers for
every manifest text), returns the empty set on any structural problem, and
for a well-formed manifest returns exactly the deduplicated, strictly
ascending union of the digit-only keys of the `apps` dict directly inside
each dict-valued library folder entry — not of `apps` blocks at arbitrary
nesting depth. -/
theorem parse_libraryfolders_vdf_spec :
    (∀ text : List Char, vdfLoad text = none →
      parse_libraryfolders_vdf text = []) ∧
    (∀ text : List Char,
      List.Pairwise (fun a b => a < b) (parse_libraryfolders_vdf text)) ∧
    (∀ (text : List Char) (data lf : Entries) (ks : List String),
      vdfLoad text = some data →
      getE data "libraryfolders" = some (.map lf) →
      collectApps lf = some ks →
      ∀ n : Int, n ∈ parse_libraryfolders_vdf text ↔
        ∃ k ∈ ks, isDigitStr k = true ∧ (decValue k.data : Int) = n) := by
  refine ⟨?_, ?_, ?_⟩
  · intro text h
    simp [parse_libraryfolders_vdf, h]
  · intro text
    cases h1 : vdfLoad text with
    | none => simp [parse_libraryfolders_vdf, h1]
    | some data =>
      cases h2 : getE data "libraryfolders" with
      | none => simp [parse_libraryfolders_vdf, h1, h2]
      | some w =>
        cases w with
        | str s => simp [parse_libraryfolders_vdf, h1, h2]
        | int n => simp [parse_libraryfolders_vdf, h1, h2]
        | map lf =>
          cases h3 : collectApps lf with
          | none => simp [parse_libraryfolders_vdf, h1, h2, h3]
          | some ks =>
            simp only [parse_libraryfolders_vdf, h1, h2, h3]
            exact pySortedSet_pairwise_lt _
  · intro text data lf ks h1 h2 h3 n
    simp only [parse_libraryfolders_vdf, h1, h2, h3]
    rw [mem_pySortedSet]
    simp only [List.mem_map, List.mem_filter]
    constructor
    · intro ⟨k, ⟨hk, hd⟩, he⟩
      exact ⟨k, hk, hd, he⟩
    · intro ⟨k, hk, hd, he⟩
      exact ⟨k, ⟨hk, hd⟩, he⟩

/-- Witness for the amended C7 on a concrete one-folder manifest. -/
theorem parse_libraryfolders_vdf_spec_witness :
    vdfLoad ("\x22libraryfolders\x22 \x7b \x220\x22 \x7b \x22apps\x22 \x7b \x2242\x22 \x221\x22 \x7d \x7d \x7d").data =
      some (.cons "libraryfolders" (.map (.cons "0"
        (.map (.cons "apps" (.map (.cons "42" (.str "1") .nil)) .nil)) .nil)) .nil) ∧
    ((42 : Int) ∈ parse_libraryfolders_vdf
        ("\x22libraryfolders\x22 \x7b \x220\x22 \x7b \x22apps\x22 \x7b \x2242\x22 \x221\x22 \x7d \x7d \x7d").data ↔
      ∃ k ∈ ["42"], isDigitStr k = true ∧ (decValue k.data : Int) = 42) :=
  ⟨rfl,
    parse_libraryfolders_vdf_spec.2.2
      ("\x22libraryfolders\x22 \x7b \x220\x22 \x7b \x22apps\x22 \x7b \x2242\x22 \x221\x22 \x7d \x7d \x7d").data
      (.cons "libraryfolders" (.map (.cons "0"
        (.map (.cons "apps" (.map (.cons "42" (.str "1") .nil)) .nil)) .nil)) .nil)
      (.cons "0" (.map (.cons "apps" (.map (.cons "42" (.str "1") .nil)) .nil)) .nil)
      ["42"] rfl rfl rfl 42⟩

theorem readStr_chars :
    ∀ (l : List Char), (∀ c ∈ l, c.toNat ≠ 0) →
      ∀ (rest : List Nat),
        readStr ((l.map Char.toNat ++ [0]) ++ rest) = some (String.mk l, rest)
  | [], _, rest => rfl
  | c :: cs, hz, rest => by
    have hc : c.toNat ≠ 0 := hz c (by simp)
    obtain ⟨m, hm⟩ : ∃ m, c.toNat = m + 1 := ⟨c.toNat - 1, by omega⟩
    have ih := readStr_chars cs (fun d hd => hz d (by simp [hd])) rest
    simp only [List.map_cons, List.cons_append]
    rw [hm]
    simp only [readStr]
    simp only [ih]
    simp only [Option.some.injEq, Prod.mk.injEq]
    refine ⟨?_, trivial⟩
    rw [← hm, Char.ofNat_toNat]

theorem readStr_enc (s : String) (hs : strOk s = true) (rest : List Nat) :
    readStr (encStr s ++ rest) = some (s, rest) := by
  obtain ⟨l⟩ := s
  have hz : ∀ c ∈ l, c.toNat ≠ 0 := by
    intro c hc
    have hall := by simpa [strOk, List.all_eq_true] using hs
    exact (hall c hc).1
  exact readStr_chars l hz rest

theorem readInt32_enc (n : Int) (h1 : -(2 ^ 31) ≤ n) (h2 : n < 2 ^ 31)
    (rest : List Nat) :
    readInt32 (encInt32 n ++ rest) = some (n, rest) := by
  simp only [encInt32, List.cons_append, List.nil_append, readInt32]
  simp only [Option.some.injEq, Prod.mk.injEq]
  refine ⟨?_, trivial⟩
  have h0 : (0 : Int) ≤ n % 4294967296 := Int.emod_nonneg n (by norm_num)
  have hM : ((n % (4294967296 : Int)).toNat : Int) = n % 4294967296 :=
    Int.toNat_of_nonneg h0
  push_cast
  rw [hM]
  split <;> omega

theorem sizeE_le : ∀ (e : Entries), sizeE e ≤ (encodeEntries e).length + 1
  | .nil => by simp [sizeE, encodeEntries]
  | .cons k v rest' => by
    have hr := sizeE_le rest'
    cases v with
    | str s =>
      simp only [sizeE, sizeV, encodeEntries, encodeEntry, encStr,
        List.length_append, List.length_cons, List.length_map, List.length_nil]
      omega
    | int n =>
      simp only [sizeE, sizeV, encodeEntries, encodeEntry, encStr, encInt32,
        List.length_append, List.length_cons, List.length_map, List.length_nil]
      omega
    | map m =>
      have hm := sizeE_le m
      simp only [sizeE, sizeV, encodeEntries, encodeEntry, encStr,
        List.length_append, List.length_cons, List.length_map, List.length_nil]
      omega

theorem decodeEntries_enc :
    ∀ (e : Entries), encOkE e = true →
      ∀ (rest : List Nat) (fuel : Nat), sizeE e ≤ fuel →
        decodeEntries fuel (encodeEntries e ++ (8 :: rest)) = some (e, rest)
  | .nil, _, rest, fuel, hf => by
    obtain ⟨f, rfl⟩ : ∃ f, fuel = f + 1 :=
      ⟨fuel - 1, by simp only [sizeE] at hf; omega⟩
    simp only [encodeEntries, List.nil_append]
    simp only [decodeEntries]
  | .cons k v rest', hok, rest, fuel, hf => by
    have h3 := hok
    simp only [encOkE, Bool.and_eq_true] at h3
    obtain ⟨⟨hk, hv⟩, hr'⟩ := h3
    obtain ⟨f, rfl⟩ : ∃ f, fuel = f + 1 :=
      ⟨fuel - 1, by simp only [sizeE] at hf; omega⟩
    cases v with
    | str s =>
      have hvs : strOk s = true := by simpa [encOkV] using hv
      have hfr : sizeE rest' ≤ f := by
        simp only [sizeE, sizeV] at hf; omega
      simp only [encodeEntries, encodeEntry, List.cons_append, List.append_assoc]
      simp only [decodeEntries]
      simp only [readStr_enc k hk, readStr_enc s hvs,
        decodeEntries_enc rest' hr' rest f hfr]
    | int n =>
      have hvn : -(2 ^ 31) ≤ n ∧ n < 2 ^ 31 := by
        simpa [encOkV] using hv
      have hfr : sizeE rest' ≤ f := by
        simp only [sizeE, sizeV] at hf; omega
      simp only [encodeEntries, encodeEntry, List.cons_append, List.append_assoc]
      simp only [decodeEntries]
      simp only [readStr_enc k hk, readInt32_enc n hvn.1 hvn.2,
        decodeEntries_enc rest' hr' rest f hfr]
    | map m =>
      have hvm : encOkE m = true := by simpa [encOkV] using hv
      have hfm : sizeE m ≤ f := by
        simp only [sizeE, sizeV] at hf; omega
      have hfr : sizeE rest' ≤ f := by
        simp only [sizeE, sizeV] at hf; omega
      simp only [encodeEntries, encodeEntry, List.cons_append, List.append_assoc,
        List.singleton_append, List.nil_append]
      simp only [decodeEntries]
      simp only [readStr_enc k hk,
        decodeEntries_enc m hvm (encodeEntries rest' ++ (8 :: rest)) f hfm,
        decodeEntries_enc rest' hr' rest f hfr]

theorem binary_load_dumps (root : Entries) (h : encOkE root = true) :
    binary_load (binary_dumps root) = some root := by
  have hsz : sizeE root ≤ (encodeEntries root ++ [8]).length + 1 := by
    have hb := sizeE_le root
    simp only [List.length_append, List.length_cons, List.length_nil]
    omega
  have hd := decodeEntries_enc root h [] ((encodeEntries root ++ [8]).length + 1) hsz
  simp only [binary_load, binary_dumps]
  rw [hd]

/-- C8: for every schema tree constructed by the builder (`new_schema`)
whose strings are NUL-free ASCII and whose integers fit the signed 32-bit
wire format, decoding the bytes produced by encoding the tree yields the
original tree: `binary_load (binary_dumps tree) = some tree`. -/
theorem schema_roundtrip (appId gameName gameVersion language : String)
    (achs : List Ach)
    (h : encOkE (new_schema appId gameName gameVersion language achs) = true) :
    binary_load (binary_dumps (new_schema appId gameName gameVersion language achs)) =
      some (new_schema appId gameName gameVersion language achs) :=
  binary_load_dumps (new_schema appId gameName gameVersion language achs) h

/-- Witness for C8 on a concrete one-achievement schema. -/
theorem schema_roundtrip_witness :
    encOkE (new_schema "480" "Demo" "1.0" "english" [demoAch 0]) = true ∧
    binary_load (binary_dumps (new_schema "480" "Demo" "1.0" "english" [demoAch 0])) =
      some (new_schema "480" "Demo" "1.0" "english" [demoAch 0]) :=
  ⟨by decide, schema_roundtrip "480" "Demo" "1.0" "english" [demoAch 0] (by decide)⟩

theorem lookupH_not_mem : ∀ (h : Heap) (r : Nat), r ∉ domH h → lookupH h r = none
  | [], _, _ => rfl
  | (a, d) :: t, r, hr => by
    have ha : a ≠ r := by
      intro he
      exact hr (by simp [domH, he])
    have ht : r ∉ domH t := by
      intro hm
      refine hr ?_
      simp only [domH, List.map_cons, List.mem_cons]
      exact Or.inr hm
    simp only [lookupH, if_neg ha]
    exact lookupH_not_mem t r ht

theorem lookupH_mem : ∀ (h : Heap) (r : Nat) (d : PDict),
    lookupH h r = some d → r ∈ domH h
  | [], r, d, he => by simp [lookupH] at he
  | (a, b) :: t, r, d, he => by
    by_cases ha : a = r
    · simp [domH, ha]
    · simp only [lookupH, if_neg ha] at he
      have hm := lookupH_mem t r d he
      simp only [domH, List.map_cons, List.mem_cons]
      exact Or.inr hm

theorem domH_updateH : ∀ (h : Heap) (t : Nat) (nd : PDict),
    domH (updateH h t nd) = domH h
  | [], _, _ => rfl
  | (a, d) :: tl, t, nd => by
    by_cases ha : a = t
    · simp [updateH, ha, domH]
    · simp only [updateH, if_neg ha]
      show a :: domH (updateH tl t nd) = a :: domH tl
      rw [domH_updateH tl t nd]

theorem lookupH_updateH_ne : ∀ (h : Heap) (t r : Nat) (nd : PDict),
    r ≠ t → lookupH (updateH h t nd) r = lookupH h r
  | [], _, _, _, _ => rfl
  | (a, d) :: tl, t, r, nd, hne => by
    by_cases ha : a = t
    · subst ha
      have har : a ≠ r := fun he => hne (he.symm.trans rfl)
      simp [updateH, lookupH, if_neg har]
    · simp only [updateH, if_neg ha, lookupH]
      by_cases har : a = r
      · simp [har]
      · simp only [if_neg har]
        exact lookupH_updateH_ne tl t r nd hne

theorem lookupH_updateH_self : ∀ (h : Heap) (t : Nat) (nd : PDict),
    t ∈ domH h → lookupH (updateH h t nd) t = some nd
  | [], t, nd, hm => by simp [domH] at hm
  | (a, d) :: tl, t, nd, hm => by
    by_cases ha : a = t
    · simp [updateH, ha, lookupH]
    · have hmt : t ∈ domH tl := by
        simp only [domH, List.map_cons, List.mem_cons] at hm
        rcases hm with h1 | h1
        · exact absurd h1.symm ha
        · exact h1
      simp only [updateH, if_neg ha, lookupH, if_neg ha]
      exact lookupH_updateH_self tl t nd hmt

theorem le_foldr_max : ∀ (l : List Nat) (x : Nat),
    x ∈ l → x ≤ l.foldr (fun a b => max a b) 0
  | [], x, hx => by simp at hx
  | a :: t, x, hx => by
    simp only [List.foldr_cons]
    rcases List.mem_cons.mp hx with h1 | h1
    · rw [h1]
      exact Nat.le_max_left a _
    · exact le_trans (le_foldr_max t x h1) (Nat.le_max_right a _)

theorem freshRef_not_mem (h : Heap) : freshRef h ∉ domH h := by
  intro hm
  have hle := le_foldr_max (domH h) (freshRef h) hm
  simp only [freshRef] at hle
  omega

theorem edgeRefs_cons_ref (k : String) (r : Nat) (t : PDict) :
    edgeRefs ((k, PVal.ref r) :: t) = r :: edgeRefs t := rfl

theorem edgeRefs_cons_str (k s : String) (t : PDict) :
    edgeRefs ((k, PVal.str s) :: t) = edgeRefs t := rfl

theorem edgeRefs_cons_int (k : String) (n : Int) (t : PDict) :
    edgeRefs ((k, PVal.int n) :: t) = edgeRefs t := rfl

theorem mem_edgeRefs_cons (k : String) (w : PVal) (t : PDict) (x : Nat)
    (hx : x ∈ edgeRefs t) : x ∈ edgeRefs ((k, w) :: t) := by
  cases w with
  | ref z => rw [edgeRefs_cons_ref]; exact List.mem_cons_of_mem z hx
  | str s => rw [edgeRefs_cons_str]; exact hx
  | int n => rw [edgeRefs_cons_int]; exact hx

theorem edgeRefs_setD : ∀ (d : PDict) (k : String) (v : PVal) (x : Nat),
    x ∈ edgeRefs (setD d k v) → x ∈ edgeRefs d ∨ v = PVal.ref x
  | [], k, v, x, hx => by
    simp only [setD] at hx
    cases v with
    | ref r =>
      rw [edgeRefs_cons_ref] at hx
      rcases List.mem_cons.mp hx with h1 | h1
      · exact Or.inr (by rw [h1])
      · simp [edgeRefs] at h1
    | str s => rw [edgeRefs_cons_str] at hx; simp [edgeRefs] at hx
    | int n => rw [edgeRefs_cons_int] at hx; simp [edgeRefs] at hx
  | (k1, w) :: t, k, v, x, hx => by
    by_cases hk : k1 = k
    · simp only [setD, if_pos hk] at hx
      cases v with
      | ref r =>
        rw [edgeRefs_cons_ref] at hx
        rcases List.mem_cons.mp hx with h1 | h1
        · exact Or.inr (by rw [h1])
        · exact Or.inl (mem_edgeRefs_cons k1 w t x h1)
      | str s =>
        rw [edgeRefs_cons_str] at hx
        exact Or.inl (mem_edgeRefs_cons k1 w t x hx)
      | int n =>
        rw [edgeRefs_cons_int] at hx
        exact Or.inl (mem_edgeRefs_cons k1 w t x hx)
    · simp only [setD, if_neg hk] at hx
      cases w with
      | ref z =>
        rw [edgeRefs_cons_ref] at hx
        rcases List.mem_cons.mp hx with h1 | h1
        · refine Or.inl ?_
          rw [edgeRefs_cons_ref, h1]
          exact List.mem_cons_self z (edgeRefs t)
        · rcases edgeRefs_setD t k v x h1 with h2 | h2
          · exact Or.inl (mem_edgeRefs_cons k1 (PVal.ref z) t x h2)
          · exact Or.inr h2
      | str s2 =>
        rw [edgeRefs_cons_str] at hx
        rcases edgeRefs_setD t k v x hx with h2 | h2
        · exact Or.inl (mem_edgeRefs_cons k1 (PVal.str s2) t x h2)
        · exact Or.inr h2
      | int n2 =>
        rw [edgeRefs_cons_int] at hx
        rcases edgeRefs_setD t k v x hx with h2 | h2
        · exact Or.inl (mem_edgeRefs_cons k1 (PVal.int n2) t x h2)
        · exact Or.inr h2

theorem mem_setD_ref : ∀ (d : PDict) (k : String) (nr : Nat),
    nr ∈ edgeRefs (setD d k (PVal.ref nr))
  | [], k, nr => by
    simp only [setD]
    rw [edgeRefs_cons_ref]
    exact List.mem_cons_self nr _
  | (k1, w) :: t, k, nr => by
    by_cases hk : k1 = k
    · simp only [setD, if_pos hk]
      rw [edgeRefs_cons_ref]
      exact List.mem_cons_self nr _
    · simp only [setD, if_neg hk]
      exact mem_edgeRefs_cons k1 w (setD t k (PVal.ref nr)) nr (mem_setD_ref t k nr)

theorem lookupD_ref_mem : ∀ (d : PDict) (k : String) (x : Nat),
    lookupD d k = some (PVal.ref x) → x ∈ edgeRefs d
  | [], k, x, he => by simp [lookupD] at he
  | (k1, w) :: t, k, x, he => by
    by_cases hk : k1 = k
    · simp only [lookupD, if_pos hk, Option.some.injEq] at he
      subst he
      rw [edgeRefs_cons_ref]
      exact List.mem_cons_self x _
    · simp only [lookupD, if_neg hk] at he
      exact mem_edgeRefs_cons k1 w t x (lookupD_ref_mem t k x he)

theorem reach_trans {h : Heap} {a b c : Nat} (hab : Reach h a b)
    (hbc : Reach h b c) : Reach h a c := by
  induction hbc with
  | refl => exact hab
  | step b1 c1 hb1 hc1 ih => exact Reach.step b1 c1 ih hc1

theorem evolve_refl (h : Heap) (root : Nat) : Evolve h root h := by
  refine ⟨fun r hr => hr, fun r _ _ => rfl, fun r _ x hx => Or.inl hx, ?_⟩
  intro r hr x hx
  simp only [edgesH, lookupH_not_mem h r hr] at hx
  simp at hx

theorem reach_transfer {h : Heap} {root : Nat} {h1 : Heap} (hE : Evolve h root h1) :
    ∀ r, Reach h1 root r → r ∈ domH h → Reach h root r := by
  intro r hr
  induction hr with
  | refl => intro _; exact Reach.refl
  | step b c hb hc ih =>
    intro hcd
    by_cases hbd : b ∈ domH h
    · rcases hE.old_edges b hbd c hc with h1 | h1
      · exact Reach.step b c (ih hbd) h1
      · exact absurd hcd h1
    · exact absurd hcd (hE.new_edges b hbd c hc)

theorem evolve_trans {h h1 h2 : Heap} {root : Nat}
    (e1 : Evolve h root h1) (e2 : Evolve h1 root h2) : Evolve h root h2 := by
  refine ⟨?_, ?_, ?_, ?_⟩
  · intro r hr
    exact e2.dom_mono r (e1.dom_mono r hr)
  · intro r hr hnr
    have hnr1 : ¬ Reach h1 root r := fun hre => hnr (reach_transfer e1 r hre hr)
    rw [e2.frame r (e1.dom_mono r hr) hnr1, e1.frame r hr hnr]
  · intro r hr x hx
    rcases e2.old_edges r (e1.dom_mono r hr) x hx with h1 | h1
    · exact e1.old_edges r hr x h1
    · exact Or.inr (fun hxd => h1 (e1.dom_mono x hxd))
  · intro r hr x hx
    by_cases hr1 : r ∈ domH h1
    · rcases e2.old_edges r hr1 x hx with hc | hc
      · exact e1.new_edges r hr x hc
      · exact fun hxd => hc (e1.dom_mono x hxd)
    · exact fun hxd => (e2.new_edges r hr1 x hx) (e1.dom_mono x hxd)

theorem evolve_mono_root {h h1 : Heap} {a root : Nat}
    (hE : Evolve h a h1) (hra : Reach h root a) : Evolve h root h1 := by
  refine ⟨hE.dom_mono, ?_, hE.old_edges, hE.new_edges⟩
  intro r hr hnr
  exact hE.frame r hr (fun hre => hnr (reach_trans hra hre))

theorem evolve_scalar_write (h : Heap) (dst : Nat) (dd : PDict) (key : String)
    (v : PVal) (hdd : lookupH h dst = some dd) (hv : ∀ x, v ≠ PVal.ref x) :
    Evolve h dst (updateH h dst (setD dd key v)) := by
  have hdom : dst ∈ domH h := lookupH_mem h dst dd hdd
  refine ⟨?_, ?_, ?_, ?_⟩
  · intro r hr
    rw [domH_updateH]
    exact hr
  · intro r hr hnr
    have hne : r ≠ dst := fun he => hnr (he ▸ Reach.refl)
    exact lookupH_updateH_ne h dst r _ hne
  · intro r hr x hx
    by_cases hrd : r = dst
    · subst hrd
      simp only [edgesH, lookupH_updateH_self h r (setD dd key v) hdom] at hx
      rcases edgeRefs_setD dd key v x hx with h1 | h1
      · refine Or.inl ?_
        simp only [edgesH, hdd]
        exact h1
      · exact absurd h1 (hv x)
    · refine Or.inl ?_
      simp only [edgesH, lookupH_updateH_ne h dst r (setD dd key v) hrd] at hx
      simp only [edgesH]
      exact hx
  · intro r hr x hx
    have hne : r ≠ dst := fun he => hr (he ▸ hdom)
    simp only [edgesH, lookupH_updateH_ne h dst r (setD dd key v) hne,
      lookupH_not_mem h r hr] at hx
    simp at hx

theorem evolve_alloc (h : Heap) (dst : Nat) (dd : PDict) (key : String)
    (hdd : lookupH h dst = some dd) :
    Evolve h dst
      ((freshRef h, ([] : PDict)) ::
        updateH h dst (setD dd key (PVal.ref (freshRef h)))) := by
  have hdom : dst ∈ domH h := lookupH_mem h dst dd hdd
  have hfr : freshRef h ∉ domH h := freshRef_not_mem h
  refine ⟨?_, ?_, ?_, ?_⟩
  · intro r hr
    have hm : r ∈ domH (updateH h dst (setD dd key (PVal.ref (freshRef h)))) := by
      rw [domH_updateH]
      exact hr
    exact List.mem_cons_of_mem _ hm
  · intro r hr hnr
    have hrd : r ≠ dst := fun he => hnr (he ▸ Reach.refl)
    have hrf : freshRef h ≠ r := fun he => hfr (he ▸ hr)
    simp only [lookupH, if_neg hrf]
    exact lookupH_updateH_ne h dst r _ hrd
  · intro r hr x hx
    have hrf : freshRef h ≠ r := fun he => hfr (he ▸ hr)
    by_cases hrd : r = dst
    · subst hrd
      simp only [edgesH, lookupH, if_neg hrf,
        lookupH_updateH_self h r (setD dd key (PVal.ref (freshRef h))) hdom] at hx
      rcases edgeRefs_setD dd key (PVal.ref (freshRef h)) x hx with h1 | h1
      · refine Or.inl ?_
        simp only [edgesH, hdd]
        exact h1
      · refine Or.inr ?_
        injection h1 with h2
        rw [← h2]
        exact hfr
    · refine Or.inl ?_
      simp only [edgesH, lookupH, if_neg hrf,
        lookupH_updateH_ne h dst r (setD dd key (PVal.ref (freshRef h))) hrd] at hx
      simp only [edgesH]
      exact hx
  · intro r hr x hx
    by_cases hrf : r = freshRef h
    · subst hrf
      simp only [edgesH, lookupH, if_pos rfl] at hx
      simp [edgeRefs] at hx
    · have hrd : r ≠ dst := fun he => hr (he ▸ hdom)
      simp only [edgesH, lookupH, if_neg (Ne.symm hrf),
        lookupH_updateH_ne h dst r (setD dd key (PVal.ref (freshRef h))) hrd,
        lookupH_not_mem h r hr] at hx
      simp at hx

theorem mergeH_evolve : ∀ (fuel : Nat),
    (∀ (h : Heap) (src dst : Nat) (h1 : Heap),
        deep_mergeH fuel h src dst = some h1 → Evolve h dst h1) ∧
    (∀ (h : Heap) (items : List (String × PVal)) (dst : Nat) (h1 : Heap),
        mergeItemsH fuel h items dst = some h1 → Evolve h dst h1) := by
  intro fuel
  induction fuel with
  | zero =>
    constructor
    · intro h src dst h1 heq
      exact absurd heq (by simp [deep_mergeH])
    · intro h items dst h1 heq
      exact absurd heq (by simp [mergeItemsH])
  | succ f ih =>
    obtain ⟨ihP, ihQ⟩ := ih
    constructor
    · intro h src dst h1 heq
      cases hs : lookupH h src with
      | none => exact absurd heq (by simp [deep_mergeH, hs])
      | some sd =>
        simp only [deep_mergeH, hs] at heq
        exact ihQ h sd dst h1 heq
    · intro h items dst h1 heq
      cases items with
      | nil =>
        simp only [mergeItemsH, Option.some.injEq] at heq
        subst heq
        exact evolve_refl h dst
      | cons kv rest =>
        obtain ⟨key, value⟩ := kv
        cases value with
        | str s =>
          cases hdd : lookupH h dst with
          | none => exact absurd heq (by simp [mergeItemsH, hdd])
          | some dd =>
            simp only [mergeItemsH, hdd] at heq
            exact evolve_trans
              (evolve_scalar_write h dst dd key (PVal.str s) hdd (fun x => by simp))
              (ihQ _ rest dst h1 heq)
        | int n =>
          cases hdd : lookupH h dst with
          | none => exact absurd heq (by simp [mergeItemsH, hdd])
          | some dd =>
            simp only [mergeItemsH, hdd] at heq
            exact evolve_trans
              (evolve_scalar_write h dst dd key (PVal.int n) hdd (fun x => by simp))
              (ihQ _ rest dst h1 heq)
        | ref sr =>
          cases hdd : lookupH h dst with
          | none => exact absurd heq (by simp [mergeItemsH, hdd])
          | some dd =>
            cases hkd : lookupD dd key with
            | some w =>
              cases w with
              | ref dr =>
                cases hrec : deep_mergeH f h sr dr with
                | none => exact absurd heq (by simp [mergeItemsH, hdd, hkd, hrec])
                | some h2 =>
                  simp only [mergeItemsH, hdd, hkd, hrec] at heq
                  have hreach : Reach h dst dr := by
                    refine Reach.step dst dr Reach.refl ?_
                    simp only [edgesH, hdd]
                    exact lookupD_ref_mem dd key dr hkd
                  exact evolve_trans
                    (evolve_mono_root (ihP h sr dr h2 hrec) hreach)
                    (ihQ h2 rest dst h1 heq)
              | str s2 =>
                cases hsr : lookupH h sr with
                | none => exact absurd heq (by simp [mergeItemsH, hdd, hkd, hsr])
                | some sd2 =>
                  cases sd2 with
                  | nil =>
                    simp only [mergeItemsH, hdd, hkd, hsr] at heq
                    exact ihQ h rest dst h1 heq
                  | cons p t2 => exact absurd heq (by simp [mergeItemsH, hdd, hkd, hsr])
              | int n2 =>
                cases hsr : lookupH h sr with
                | none => exact absurd heq (by simp [mergeItemsH, hdd, hkd, hsr])
                | some sd2 =>
                  cases sd2 with
                  | nil =>
                    simp only [mergeItemsH, hdd, hkd, hsr] at heq
                    exact ihQ h rest dst h1 heq
                  | cons p t2 => exact absurd heq (by simp [mergeItemsH, hdd, hkd, hsr])
            | none =>
              cases hrec : deep_mergeH f
                  ((freshRef h, ([] : PDict)) ::
                    updateH h dst (setD dd key (PVal.ref (freshRef h))))
                  sr (freshRef h) with
              | none => exact absurd heq (by simp [mergeItemsH, hdd, hkd, hrec])
              | some h2 =>
                simp only [mergeItemsH, hdd, hkd, hrec] at heq
                have e1 : Evolve h dst
                    ((freshRef h, ([] : PDict)) ::
                      updateH h dst (setD dd key (PVal.ref (freshRef h)))) :=
                  evolve_alloc h dst dd key hdd
                have hreach : Reach
                    ((freshRef h, ([] : PDict)) ::
                      updateH h dst (setD dd key (PVal.ref (freshRef h))))
                    dst (freshRef h) := by
                  refine Reach.step dst (freshRef h) Reach.refl ?_
                  have hdom : dst ∈ domH h := lookupH_mem h dst dd hdd
                  have hfd : freshRef h ≠ dst :=
                    fun he => (freshRef_not_mem h) (he ▸ hdom)
                  simp only [edgesH, lookupH, if_neg hfd,
                    lookupH_updateH_self h dst (setD dd key (PVal.ref (freshRef h))) hdom]
                  exact mem_setD_ref dd key (freshRef h)
                exact evolve_trans (evolve_trans e1
                    (evolve_mono_root (ihP _ sr (freshRef h) h2 hrec) hreach))
                  (ihQ h2 rest dst h1 heq)

/-- C2 as stated is false: `deep_merge` returns the destination dict itself,
mutated in place.  Merging `{"a": "x"}` (object 0) into `{}` (object 1)
changes the dict object stored at address 1. -/
theorem deep_merge_mutates_destination_cex :
    deep_mergeH 3 [(0, [("a", PVal.str "x")]), (1, ([] : PDict))] 0 1 =
      some [(0, [("a", PVal.str "x")]), (1, [("a", PVal.str "x")])] ∧
    lookupH [(0, [("a", PVal.str "x")]), (1, [("a", PVal.str "x")])] 1 ≠
      lookupH [(0, [("a", PVal.str "x")]), (1, ([] : PDict))] 1 :=
  ⟨rfl, by decide⟩

/-- C2 (amended): `deep_merge` is not pure — it mutates the destination in
place — but it never mutates the source: whenever the call returns and no
dict object reachable from the source is reachable from the destination,
every dict object reachable from the source is unchanged on the heap. -/
theorem deep_merge_source_frame (fuel : Nat) (h : Heap) (src dst : Nat)
    (h1 : Heap) (hm : deep_mergeH fuel h src dst = some h1)
    (hcl : ∀ r, Reach h src r → r ∈ domH h)
    (hdisj : ∀ r, Reach h src r → ¬ Reach h dst r) :
    ∀ r, Reach h src r → lookupH h1 r = lookupH h r := by
  intro r hr
  exact ((mergeH_evolve fuel).1 h src dst h1 hm).frame r (hcl r hr) (hdisj r hr)

/-- Witness for the amended C2 on the concrete merge of `{"a": "x"}`
(object 0) into `{}` (object 1): the call succeeds and the source dict
object is unchanged. -/
theorem deep_merge_source_frame_witness :
    deep_mergeH 3 [(0, [("a", PVal.str "x")]), (1, ([] : PDict))] 0 1 =
      some [(0, [("a", PVal.str "x")]), (1, [("a", PVal.str "x")])] ∧
    lookupH [(0, [("a", PVal.str "x")]), (1, [("a", PVal.str "x")])] 0 =
      lookupH [(0, [("a", PVal.str "x")]), (1, ([] : PDict))] 0 := by
  have hm : deep_mergeH 3 [(0, [("a", PVal.str "x")]), (1, ([] : PDict))] 0 1 =
      some [(0, [("a", PVal.str "x")]), (1, [("a", PVal.str "x")])] := rfl
  have h0 : ∀ r, Reach [(0, [("a", PVal.str "x")]), (1, ([] : PDict))] 0 r →
      r = 0 := by
    intro r hr
    induction hr with
    | refl => rfl
    | step b c hb hc ih =>
      rw [ih] at hc
      rw [show edgesH [(0, [("a", PVal.str "x")]), (1, ([] : PDict))] 0 = []
        from rfl] at hc
      exact absurd hc (List.not_mem_nil c)
  have h1 : ∀ r, Reach [(0, [("a", PVal.str "x")]), (1, ([] : PDict))] 1 r →
      r = 1 := by
    intro r hr
    induction hr with
    | refl => rfl
    | step b c hb hc ih =>
      rw [ih] at hc
      rw [show edgesH [(0, [("a", PVal.str "x")]), (1, ([] : PDict))] 1 = []
        from rfl] at hc
      exact absurd hc (List.not_mem_nil c)
  refine ⟨hm, ?_⟩
  exact deep_merge_source_frame 3 _ 0 1 _ hm
    (fun r hr => by rw [h0 r hr]; decide)
    (fun r hr hr1 => by
      have ha := h0 r hr
      have hb := h1 r hr1
      omega)
    0 Reach.refl
